import Mathlib

/-!
Verification of the picomerge replicated multi-value register with undo/redo
(`src/implementation/ts/src/picomerge.ts`), as a shallow embedding.

JavaScript strings are modelled as lists of characters (`JStr`); JS `Map`s
and `Set`s are modelled as insertion-ordered association lists resp. lists
without duplicates, matching the iteration-order semantics of the source.
JS numbers appearing as Lamport counters are modelled as `Nat` (they are
only ever incremented and maxed); `parseInt` results are modelled as
`Option Int`, where `none` stands for `NaN`.
-/

namespace Picomerge

/-- Model of a JavaScript string: a list of characters. -/
abbrev JStr := List Char

/-- Space characters skipped by JS `parseInt`. -/
def isJsSpace (c : Char) : Bool :=
  c = ' ' || c = '\t' || c = '\n' || c = '\r'

/-- Value of a decimal digit string, most significant digit first
(the accumulating loop of a decimal parse). -/
def digitsToNat (s : JStr) : Nat :=
  s.foldl (fun acc c => acc * 10 + (c.toNat - '0'.toNat)) 0

/-- Longest leading run of decimal digits, as a number; `none` when the
string does not start with a digit (JS `parseInt` yields `NaN` then). -/
def parseDigitsPref (s : JStr) : Option Nat :=
  let ds := s.takeWhile Char.isDigit
  if ds = [] then none else some (digitsToNat ds)

/-- Model of JS `parseInt(s, 10)`: skip whitespace, optional sign, then the
longest digit run; `none` models `NaN`. -/
def jsParseInt (s : JStr) : Option Int :=
  let t := s.dropWhile isJsSpace
  if t.headD ' ' = '-' then (parseDigitsPref t.tail).map (fun n => -(n : Int))
  else if t.headD ' ' = '+' then (parseDigitsPref t.tail).map (fun n => (n : Int))
  else (parseDigitsPref t).map (fun n => (n : Int))

/-- Decimal digits of a natural number, most significant first
(the rendering used by JS template literals for non-negative integers).
Structural fuel makes the definition kernel-computable. -/
def natDigitsAux : Nat → Nat → List Char → List Char
  | 0, _, acc => acc
  | fuel + 1, n, acc =>
    if n < 10 then Nat.digitChar n :: acc
    else natDigitsAux fuel (n / 10) (Nat.digitChar (n % 10) :: acc)

/-- Decimal representation of a natural number. -/
def natDigits (n : Nat) : JStr := natDigitsAux (n + 1) n []

/-- Model of JS `str.split(sep)` for a one-character separator. -/
def splitOnChar (sep : Char) : JStr → List JStr
  | [] => [[]]
  | c :: rest =>
    let r := splitOnChar sep rest
    if c = sep then [] :: r
    else
      match r with
      | [] => [[c]]
      | h :: t => (c :: h) :: t

/-- Model of the JS string relational operator `<` (lexicographic on
character code units). -/
def jstrLt : JStr → JStr → Bool
  | [], [] => false
  | [], _ :: _ => true
  | _ :: _, [] => false
  | a :: as, b :: bs => if a < b then true else if b < a then false else jstrLt as bs

/-- A Lamport timestamp: `[ctr, actorId]` in the source. -/
structure OpId where
  ctr : Nat
  actor : JStr
deriving DecidableEq, Repr

namespace OpId

/-- Source: `OpId.create`. -/
def create (ctr : Nat) (actorId : JStr) : OpId := ⟨ctr, actorId⟩

/-- Source: `OpId.toString`, producing the canonical key string
interpolated as the template literal `ctr@actorId`. -/
def toString (o : OpId) : JStr := natDigits o.ctr ++ '@' :: o.actor

/-- The runtime value produced by `OpId.fromString`: the counter slot may
hold `NaN` (`none`) and the actor slot may be `undefined` (`none`). -/
abbrev Parsed := Option Int × Option JStr

/-- Source: `OpId.fromString` — splits the string on every `"@"`, takes the
first part through `parseInt` and the second part (possibly `undefined`) as
the actor; it performs no validation. -/
def fromString (str : JStr) : Parsed :=
  let parts := splitOnChar '@' str
  (jsParseInt (parts.headD []), parts.get? 1)

/-- Source: `OpId.compare` on well-formed operation identifiers (the only
ones produced by `clock.tick`): compare counters, tie-break on the actor
string with JS `<`. -/
def compare (a b : OpId) : Int :=
  let ctrDiff : Int := (a.ctr : Int) - (b.ctr : Int)
  if ctrDiff = 0 then
    if a.actor = b.actor then 0
    else if jstrLt a.actor b.actor then -1 else 1
  else if ctrDiff < 0 then -1 else 1

/-- Source: `OpId.compare` as invoked on values returned by `fromString`,
whose slots may hold `NaN` or `undefined`. A `NaN` counter difference makes
both `=== 0` and `< 0` false, so the code returns `1`; `undefined === undefined`
is true, and `<` involving `undefined` is false. -/
def compareParsed (a b : Parsed) : Int :=
  match a.1, b.1 with
  | some x, some y =>
    if x - y = 0 then
      match a.2, b.2 with
      | some s, some t => if s = t then 0 else if jstrLt s t then -1 else 1
      | none, none => 0
      | _, _ => 1
    else if x - y < 0 then -1 else 1
  | _, _ => 1

end OpId

/-- Source: `OpIdTrace.compare` — walk the zip of the two traces, return the
first non-zero comparison of the parsed entries, else `0`. -/
def traceCompareGo : List (JStr × JStr) → Int
  | [] => 0
  | (x, y) :: rest =>
    let comparison := OpId.compareParsed (OpId.fromString x) (OpId.fromString y)
    if comparison = 0 then traceCompareGo rest else comparison

/-- Source: `OpIdTrace.compare`. -/
def OpIdTrace.compare (a b : List JStr) : Int := traceCompareGo (a.zip b)

/-- An operation: a `set` (also used for delete, with an absent value) or a
`restore` (used for both undo and redo). `preds` is a JS `Set` of stringified
OpIds, modelled as an insertion-ordered duplicate-free list. -/
inductive Op (V : Type) where
  | set (opId : OpId) (preds : List JStr) (value : Option V)
  | restore (opId : OpId) (preds : List JStr) (anchor : OpId)
deriving DecidableEq, Repr

namespace Op

/-- The `opId` field shared by both kinds. -/
def opId : Op V → OpId
  | .set i _ _ => i
  | .restore i _ _ => i

/-- The `preds` field shared by both kinds. -/
def preds : Op V → List JStr
  | .set _ p _ => p
  | .restore _ p _ => p

/-- JS test `op.kind === OpKind.restore`. -/
def isRestoreKind : Op V → Bool
  | .set .. => false
  | .restore .. => true

/-- JS property access `op.value`: `undefined` (`none`) on a restore op or
on a delete (a set with absent value). -/
def valueOf : Op V → Option V
  | .set _ _ v => v
  | .restore .. => none

end Op

/-- Metadata collected while resolving a head (source type
`ResolutionMetadata`). -/
structure Meta where
  opIdTrace : List JStr
  resolutionDepth : Nat
deriving DecidableEq, Repr

/-- Association-list model of a JS `Map` keyed by stringified OpIds:
`Map.get`. -/
def lookupA : List (JStr × α) → JStr → Option α
  | [], _ => none
  | (k, v) :: rest, key => if k = key then some v else lookupA rest key

/-- `Map.has`. -/
def hasKeyA (m : List (JStr × α)) (k : JStr) : Bool := (lookupA m k).isSome

/-- `Map.set`: replace the value in place if the key exists, else append
(JS `Map`s keep the original insertion position on overwrite). -/
def setA : List (JStr × α) → JStr → α → List (JStr × α)
  | [], k, v => [(k, v)]
  | (k0, v0) :: rest, k, v =>
    if k0 = k then (k, v) :: rest else (k0, v0) :: setA rest k v

/-- JS `Set.add` on an insertion-ordered duplicate-free list. -/
def setAddU (l : List JStr) (k : JStr) : List JStr := if k ∈ l then l else l ++ [k]

/-- Source `utils.ts` `partition`: one pass splitting an iterable by a
predicate, preserving order in both parts. -/
def partitionJS (pred : α → Bool) (l : List α) : List α × List α :=
  (l.filter pred, l.filter (fun x => !pred x))

/-- The full private state of one replica: the `History` closure state
(lobby, appliedOps, heads, lastOp, cache, undo/redo stacks), the Lamport
clock counter, and the `MvRegister` (values and terminalHeads). -/
structure Replica (V : Type) where
  actorId : JStr
  useCache : Bool
  ctr : Nat
  lobby : List (JStr × Op V)
  appliedOps : List (JStr × Op V)
  heads : List JStr
  lastOp : Option (Op V)
  cache : List (JStr × List (Op V))
  undoStack : List (Op V)
  redoStack : List (Op V)
  values : List V
  termHeads : List (Op V × Meta)
deriving Repr

/-- Source: `isCausallyReady` — all preds already applied. -/
def isCausallyReady (applied : List (JStr × Op V)) (op : Op V) : Bool :=
  op.preds.all (fun pred => hasKeyA applied pred)

/-- Stable insertion of `x` into `l`: `x` goes before the first element it
does not compare greater than. Together with `stableSortJS` this computes
the unique stably-sorted permutation, which is what `Array.prototype.sort`
(guaranteed stable) returns for a consistent comparator. -/
def insertOrdered (cmp : α → α → Int) (x : α) : List α → List α
  | [] => [x]
  | y :: ys => if cmp x y > 0 then y :: insertOrdered cmp x ys else x :: y :: ys

/-- Stable sort by a JS comparator (negative means "a before b"). -/
def stableSortJS (cmp : α → α → Int) : List α → List α
  | [] => []
  | x :: xs => insertOrdered cmp x (stableSortJS cmp xs)

/-- The comparator passed to `.sort` in `terminalHeads`:
`(a, b) => OpIdTrace.compare(bTrace, aTrace)` — descending by trace. -/
def sortCmp (a b : Op V × Meta) : Int :=
  OpIdTrace.compare b.2.opIdTrace a.2.opIdTrace

/-- The breadth-first queue loop inside `terminalHeads`' inner
`resolveToTerminalOp`. The queue holds `(opId, metadata)` pairs; a set op
is emitted into the result, a restore op enqueues its anchor's preds (or
splices cached resolutions when `useCache`). An absent anchor models the
thrown "Impossible: Anchor operation not found" (`none`). The loop runs
until the queue is empty; the `Nat` fuel only bounds the iteration count
(the source loop is unbounded), `none` on exhaustion. -/
def bfsGo (applied : List (JStr × Op V)) (cur : Op V) (useCache : Bool)
    (cache : List (JStr × List (Op V))) :
    Nat → List (JStr × Meta) → List (Op V × Meta) → Option (List (Op V × Meta))
  | 0, _, _ => none
  | _ + 1, [], result => some result
  | fuel + 1, (nextOpId, metadata) :: restQ, result =>
    let newMeta : Meta :=
      ⟨metadata.opIdTrace ++ [nextOpId], metadata.resolutionDepth + 1⟩
    let nextOp := (lookupA applied nextOpId).getD cur
    match nextOp with
    | .set i p v =>
      bfsGo applied cur useCache cache fuel restQ (result ++ [(Op.set i p v, newMeta)])
    | .restore _ _ anchor =>
      match lookupA applied (OpId.toString anchor) with
      | none => none
      | some anchorOp =>
        if useCache then
          let parts := partitionJS (fun pred => hasKeyA cache pred) anchorOp.preds
          let hits := parts.1.flatMap (fun cachedPred =>
            ((lookupA cache cachedPred).getD []).map (fun v =>
              (v, (⟨newMeta.opIdTrace ++ [cachedPred],
                    newMeta.resolutionDepth + 1⟩ : Meta))))
          bfsGo applied cur useCache cache fuel
            (restQ ++ parts.2.map (fun pred => (pred, newMeta)))
            (result ++ hits)
        else
          bfsGo applied cur useCache cache fuel
            (restQ ++ anchorOp.preds.map (fun pred => (pred, newMeta)))
            result

/-- One head's resolution (`resolveToTerminalOp` inside `terminalHeads`):
run the queue loop from the head's key; when caching and the head is a
restore, sort the result in place (JS `sort` mutates and returns the
array) and memoise the sorted terminal ops under the head's OpId. -/
def resolveHeadOp (applied : List (JStr × Op V)) (cur : Op V) (useCache : Bool)
    (fuel : Nat) (cache : List (JStr × List (Op V))) (headKey : JStr)
    (headOp : Op V) : Option (List (Op V × Meta) × List (JStr × List (Op V))) :=
  match bfsGo applied cur useCache cache fuel [(headKey, ⟨[], 0⟩)] [] with
  | none => none
  | some result =>
    if useCache && headOp.isRestoreKind then
      let sorted := stableSortJS sortCmp result
      some (sorted, setA cache (OpId.toString headOp.opId) (sorted.map Prod.fst))
    else some (result, cache)

/-- The `terminalHeads` IIFE in `add`: resolve every current head (the
currently-processed op `cur` stands in for its not-yet-inserted key), then
sort everything by descending opIdTrace. The cache threads left-to-right
through the heads, as the shared mutable `cache` map does. -/
def computeTerminalHeads (applied : List (JStr × Op V)) (cur : Op V)
    (useCache : Bool) (fuel : Nat) :
    List JStr → List (JStr × List (Op V)) →
    Option (List (Op V × Meta) × List (JStr × List (Op V)))
  | [], cache => some ([], cache)
  | head :: moreHeads, cache =>
    let headOp := (lookupA applied head).getD cur
    match resolveHeadOp applied cur useCache fuel cache head headOp with
    | none => none
    | some (result, cache1) =>
      match computeTerminalHeads applied cur useCache fuel moreHeads cache1 with
      | none => none
      | some (more, cache2) => some (result ++ more, cache2)

/-- Fuel given to each head's queue loop: a strict upper bound on the
number of dequeues any terminating resolution can perform (every queue
entry corresponds to a strictly application-time-decreasing path through
the applied set, so there are fewer than `2 ^ (n + 1)` of them per head). -/
def bfsFuel (applied : List (JStr × Op V)) : Nat := 4 ^ (applied.length + 2)

/-- The `_advanceHeads` IIFE in `add`: delete every pred of `op` from the
heads set, then add `op`'s own key. -/
def advanceHeads (op : Op V) (heads : List JStr) (k : JStr) : List JStr :=
  setAddU (heads.filter (fun h => !op.preds.contains h)) k

/-- The `_updateLastOp` IIFE in `add`. -/
def updateLastOp (op : Op V) : Option (Op V) → Option (Op V)
  | none => some op
  | some lo => if OpId.compare op.opId lo.opId > 0 then some op else some lo

/-- The state right after `add` has applied `op`'s effect and before the
newly-ready lobby ops are admitted: heads advanced, lastOp updated, the
register's values and terminalHeads overwritten with the freshly computed
(sorted) resolution, `op` appended to the applied map, the clock synced,
and the lobby reduced to its not-yet-ready entries. -/
def admittedState (op : Op V) (s : Replica V) (preSort : List (Op V × Meta))
    (cache1 : List (JStr × List (Op V))) : Replica V :=
  let th := stableSortJS sortCmp preSort
  let applied1 := s.appliedOps ++ [(OpId.toString op.opId, op)]
  let parts := partitionJS (isCausallyReady applied1) (s.lobby.map Prod.snd)
  { s with
    heads := advanceHeads op s.heads (OpId.toString op.opId)
    lastOp := updateLastOp op s.lastOp
    termHeads := th
    values := th.filterMap (fun e => e.1.valueOf)
    appliedOps := applied1
    ctr := max s.ctr op.opId.ctr
    cache := cache1
    lobby := parts.2.map (fun o => (OpId.toString o.opId, o)) }

/-- The lobby entries that become causally ready once `op` is applied
(`processCausallyReady`'s `ready` partition, in lobby order). -/
def readyOps (op : Op V) (s : Replica V) : List (Op V) :=
  (partitionJS (isCausallyReady (s.appliedOps ++ [(OpId.toString op.opId, op)]))
    (s.lobby.map Prod.snd)).1

/-- One step of `add` plus the `processCausallyReady` fixed point, written
as a worklist loop: the recursive `ready.forEach((op) => add(op, register,
true))` cascade is modelled by prepending each step's newly-ready ops to
the remaining worklist (call-stack order). Entries carry the
`skipCausallyReadyCheck` flag (`false` only for the externally applied
op). `none` models a thrown resolution error; the fuel only bounds the
cascade length (at most one worklist entry per lobby entry plus one). -/
def addLoop : Nat → List (Op V × Bool) → Replica V → Option (Replica V)
  | 0, _, _ => none
  | _ + 1, [], s => some s
  | fuel + 1, (op, skipCausallyReadyCheck) :: rest, s =>
    let stringifiedOpId := OpId.toString op.opId
    if hasKeyA s.appliedOps stringifiedOpId then
      addLoop fuel rest s
    else if !skipCausallyReadyCheck && !isCausallyReady s.appliedOps op then
      addLoop fuel rest
        { s with lobby := if hasKeyA s.lobby stringifiedOpId then s.lobby
                          else s.lobby ++ [(stringifiedOpId, op)] }
    else
      match computeTerminalHeads s.appliedOps op s.useCache
          (bfsFuel s.appliedOps) (advanceHeads op s.heads stringifiedOpId) s.cache with
      | none => none
      | some (preSort, cache1) =>
        addLoop fuel ((readyOps op s).map (fun o => (o, true)) ++ rest)
          (admittedState op s preSort cache1)

/-- Source: `history.add(op, register)` as called through the public
`apply`: enough fuel for the op plus every lobby entry. -/
def add (op : Op V) (s : Replica V) : Option (Replica V) :=
  addLoop (s.lobby.length + 2) [(op, false)] s

/-- Source: `Picomerge.apply` over defined entries. -/
def applyOps : List (Op V) → Replica V → Option (Replica V)
  | [], s => some s
  | op :: rest, s =>
    match add op s with
    | none => none
    | some s1 => applyOps rest s1

/-- Source: the standalone `resolveToTerminalOp` utility used by `redo`:
follow anchors through `appliedOps` until a non-restore op is found.
`none` models both the thrown "cannot resolve to terminal op" and
non-termination (the fuel bounds the hop count of the unbounded source
loop). -/
def resolveToTerminalOp (applied : List (JStr × Op V)) :
    Nat → OpId → Option (Op V)
  | 0, _ => none
  | fuel + 1, anchor =>
    match lookupA applied (OpId.toString anchor) with
    | none => none
    | some anchorOp =>
      match anchorOp with
      | .set i p v => some (Op.set i p v)
      | .restore _ _ anchor2 => resolveToTerminalOp applied fuel anchor2

/-- Source: `Picomerge.create` — fresh clock, empty history, empty register. -/
def create (V : Type) (actorId : JStr) (useCache : Bool) : Replica V :=
  ⟨actorId, useCache, 0, [], [], [], none, [], [], [], [], []⟩

/-- Source: `clock.tick()` — the next OpId, without advancing the clock. -/
def tick (s : Replica V) : OpId := ⟨s.ctr + 1, s.actorId⟩

/-- Source: `history.set(value?)` — build the set op with the current heads
as preds, push it on the undo stack, clear the redo stack. -/
def historySet (value : Option V) (s : Replica V) : Op V × Replica V :=
  let op : Op V := Op.set (tick s) s.heads value
  (op, { s with undoStack := s.undoStack ++ [op], redoStack := [] })

/-- Source: `Picomerge.set` — generate locally, then apply. -/
def setValue (v : V) (s : Replica V) : Option (Replica V) :=
  let (op, s1) := historySet (some v) s
  applyOps [op] s1

/-- Source: `Picomerge.delete` — no-op guard on an empty register, else a
set with an absent value. -/
def deleteValue (s : Replica V) : Option (Replica V) :=
  if s.values.length = 0 then some s
  else
    let (op, s1) := historySet none s
    applyOps [op] s1

/-- Source: `Picomerge.undo` — pop the undo stack (JS `Array.pop` takes the
last element), emit a restore anchored there, push it on the redo stack,
apply. Empty stack: `undefined` is returned and `apply` skips it. -/
def undoOp (s : Replica V) : Option (Replica V) :=
  match s.undoStack.getLast? with
  | none => some s
  | some anchor =>
    let op : Op V := Op.restore (tick s) s.heads anchor.opId
    let s1 : Replica V :=
      { s with undoStack := s.undoStack.dropLast, redoStack := s.redoStack ++ [op] }
    applyOps [op] s1

/-- Source: `Picomerge.redo` — pop the redo stack, emit a restore anchored
at the popped restore, resolve the new restore down to its terminal set op
and push that terminal on the undo stack, apply. -/
def redoOp (s : Replica V) : Option (Replica V) :=
  match s.redoStack.getLast? with
  | none => some s
  | some anchor =>
    let op : Op V := Op.restore (tick s) s.heads anchor.opId
    match resolveToTerminalOp s.appliedOps (s.appliedOps.length + 1) anchor.opId with
    | none => none
    | some terminalOp =>
      let s1 : Replica V :=
        { s with redoStack := s.redoStack.dropLast,
                 undoStack := s.undoStack ++ [terminalOp] }
      applyOps [op] s1

/-- One call against the public facade of a replica. -/
inductive Action (V : Type) where
  | setv (v : V)
  | del
  | undo
  | redo
  | deliver (ops : List (Op V))
deriving Repr

/-- Interpret one action. -/
def step (s : Replica V) : Action V → Option (Replica V)
  | .setv v => setValue v s
  | .del => deleteValue s
  | .undo => undoOp s
  | .redo => redoOp s
  | .deliver ops => applyOps ops s

/-- Interpret a list of actions left to right. -/
def run (s : Replica V) : List (Action V) → Option (Replica V)
  | [] => some s
  | a :: rest =>
    match step s a with
    | none => none
    | some s1 => run s1 rest

/-- A state an actor's replica can be driven into through the public API. -/
def ReachableFrom (s0 s : Replica V) : Prop :=
  ∃ acts : List (Action V), run s0 acts = some s

/-! ### Concrete scenario data -/

/-- Actor id of the scenario replica A. -/
def actorA : JStr := ['A']

/-- Actor id of the scenario replica B. -/
def actorB : JStr := ['B']

/-- Actor id of the scenario replica C. -/
def actorC : JStr := ['C']

/-- S7: A's shared initial `set(1)`. -/
def opA1 : Op Nat := .set ⟨1, actorA⟩ [] (some 1)

/-- S7: A's concurrent `undo()`. -/
def opA2 : Op Nat := .restore ⟨2, actorA⟩ [OpId.toString ⟨1, actorA⟩] ⟨1, actorA⟩

/-- S7: A's concurrent `redo()`. -/
def opA3 : Op Nat := .restore ⟨3, actorA⟩ [OpId.toString ⟨2, actorA⟩] ⟨2, actorA⟩

/-- S7: B's concurrent `set(3)`. -/
def opB2 : Op Nat := .set ⟨2, actorB⟩ [OpId.toString ⟨1, actorA⟩] (some 3)

/-- S7: B's concurrent `set(4)`. -/
def opB3 : Op Nat := .set ⟨3, actorB⟩ [OpId.toString ⟨2, actorB⟩] (some 4)

/-- S7: C's concurrent `set(2)`. -/
def opC2 : Op Nat := .set ⟨2, actorC⟩ [OpId.toString ⟨1, actorA⟩] (some 2)

/-- S7: C's concurrent `undo()`. -/
def opC3 : Op Nat := .restore ⟨3, actorC⟩ [OpId.toString ⟨2, actorC⟩] ⟨2, actorC⟩

/-- S7: the common trace list every replica must end with. -/
def s7traces : List (List JStr) :=
  [[OpId.toString ⟨3, actorC⟩, OpId.toString ⟨1, actorA⟩],
    [OpId.toString ⟨3, actorB⟩],
    [OpId.toString ⟨3, actorA⟩, OpId.toString ⟨1, actorA⟩]]

/-- A head of a replica whose applied map already holds `1@A`, used to
witness idempotence (the hypothesis does not require reachability). -/
def witnessApplied : Replica Nat :=
  ⟨actorA, false, 0, [], [(OpId.toString ⟨1, actorA⟩, opA1)], [], none, [], [], [], [], []⟩

/-- The literal state of actor A's replica after `set(1); undo()`, used as
a concrete reachable state in witnesses. -/
def reach1 : Replica Nat :=
  { actorId := actorA
    useCache := false
    ctr := 2
    lobby := []
    appliedOps := [(OpId.toString ⟨1, actorA⟩, Op.set ⟨1, actorA⟩ [] (some 1)),
      (OpId.toString ⟨2, actorA⟩,
        Op.restore ⟨2, actorA⟩ [OpId.toString ⟨1, actorA⟩] ⟨1, actorA⟩)]
    heads := [OpId.toString ⟨2, actorA⟩]
    lastOp := some (Op.restore ⟨2, actorA⟩ [OpId.toString ⟨1, actorA⟩] ⟨1, actorA⟩)
    cache := []
    undoStack := []
    redoStack := [Op.restore ⟨2, actorA⟩ [OpId.toString ⟨1, actorA⟩] ⟨1, actorA⟩]
    values := []
    termHeads := [] }

/-- The literal state of actor A's replica after `set(1)`, a reachable
state with a non-empty terminal-head list. -/
def reach2 : Replica Nat :=
  { actorId := actorA
    useCache := false
    ctr := 1
    lobby := []
    appliedOps := [(OpId.toString ⟨1, actorA⟩, Op.set ⟨1, actorA⟩ [] (some 1))]
    heads := [OpId.toString ⟨1, actorA⟩]
    lastOp := some (Op.set ⟨1, actorA⟩ [] (some 1))
    cache := []
    undoStack := [Op.set ⟨1, actorA⟩ [] (some 1)]
    redoStack := []
    values := [1]
    termHeads := [(Op.set ⟨1, actorA⟩ [] (some 1),
      ⟨[OpId.toString ⟨1, actorA⟩], 1⟩)] }

/-- Core well-formedness of a replica's graph store: the applied map is
keyed by the stringified OpIds of its ops, keys are unique, the clock
dominates every applied counter, and heads only name applied ops. -/
structure CoreInv (s : Replica V) : Prop where
  wellKeyed : ∀ kv ∈ s.appliedOps, kv.1 = OpId.toString (kv.2 : Op V).opId
  nodupKeys : (s.appliedOps.map Prod.fst).Nodup
  clockBound : ∀ kv ∈ s.appliedOps, (kv.2 : Op V).opId.ctr ≤ s.ctr
  headsSub : ∀ h ∈ s.heads, hasKeyA s.appliedOps h = true

/-- Stack discipline: every undo-stack entry is one of this actor's own
set ops, applied as itself; every redo-stack entry is one of this actor's
own restore ops, applied as itself, whose anchor is applied as one of this
actor's own set ops. -/
structure StackInv (s : Replica V) : Prop where
  undoOwn : ∀ u ∈ s.undoStack, ∃ i p v, u = Op.set i p v ∧ i.actor = s.actorId ∧
    lookupA s.appliedOps (OpId.toString i) = some u
  redoOwn : ∀ r ∈ s.redoStack, ∃ i p a, r = Op.restore i p a ∧ i.actor = s.actorId ∧
    lookupA s.appliedOps (OpId.toString i) = some r ∧
    ∃ ui up uv, lookupA s.appliedOps (OpId.toString a) = some (Op.set ui up uv) ∧
      ui.actor = s.actorId

/-- The full invariant maintained by every public call. -/
def Inv (s : Replica V) : Prop := CoreInv s ∧ StackInv s

/-- Deeper graph-store invariants: applied ops have applied preds, applied
restores have applied anchors, and the head set is exactly the set of
applied keys that are no applied op's predecessor (in particular it is a
pure function of the applied map). -/
structure DeepInv (s : Replica V) : Prop where
  predsApplied : ∀ kv ∈ s.appliedOps, ∀ p ∈ (kv.2 : Op V).preds,
    hasKeyA s.appliedOps p = true
  anchorsApplied : ∀ kv ∈ s.appliedOps, ∀ i pr anc,
    (kv.2 : Op V) = Op.restore i pr anc →
    hasKeyA s.appliedOps (OpId.toString anc) = true
  headsNodup : s.heads.Nodup
  headsChar : ∀ k, k ∈ s.heads ↔ (hasKeyA s.appliedOps k = true ∧
    ∀ kv ∈ s.appliedOps, k ∉ (kv.2 : Op V).preds)

/-- Shape of the stored terminal heads: every entry's trace starts at a
current head, and — when the resolution cache is disabled — ends at the
stringified OpId of the entry's terminal op. -/
def TraceShape (s : Replica V) : Prop :=
  ∀ e ∈ s.termHeads,
    (∃ h0, (e.2 : Meta).opIdTrace.head? = some h0 ∧ h0 ∈ s.heads) ∧
    (s.useCache = false →
      (e.2 : Meta).opIdTrace.getLast? = some (OpId.toString (e.1 : Op V).opId))

/-- Every worklist entry flagged as having skipped the causal-readiness
check is in fact causally ready (they were partitioned out of the lobby as
ready, and readiness is monotone in the applied map). -/
def WlReady (wl : List (Op V × Bool)) (s : Replica V) : Prop :=
  ∀ p ∈ wl, (p : Op V × Bool).2 = true → isCausallyReady s.appliedOps p.1 = true

/-- Frame facts relating a state to any later state of the same replica:
identity and configuration are fixed, the local stacks are untouched by
remote application, the clock is monotone, and the applied map only ever
grows (old bindings persist verbatim). -/
def Extends (s s' : Replica V) : Prop :=
  s'.actorId = s.actorId ∧ s'.useCache = s.useCache ∧
  s'.undoStack = s.undoStack ∧ s'.redoStack = s.redoStack ∧ s.ctr ≤ s'.ctr ∧
  ∀ k (v : Op V), lookupA s.appliedOps k = some v → lookupA s'.appliedOps k = some v

/-! ### Association list basics -/

theorem lookupA_append (m1 m2 : List (JStr × α)) (k : JStr) :
    lookupA (m1 ++ m2) k = (lookupA m1 k).or (lookupA m2 k) := by
  induction m1 with
  | nil => simp [lookupA]
  | cons kv rest ih =>
    obtain ⟨k0, v0⟩ := kv
    by_cases h : k0 = k
    · simp [lookupA, h]
    · simp [lookupA, h, ih]

theorem lookupA_append_right_isSome (m : List (JStr × α)) (k : JStr) (v : α) :
    (lookupA (m ++ [(k, v)]) k).isSome := by
  rw [lookupA_append]
  cases h : lookupA m k with
  | none => simp [lookupA]
  | some w => simp

theorem lookupA_mem {m : List (JStr × α)} {k : JStr} {v : α}
    (h : lookupA m k = some v) : (k, v) ∈ m := by
  induction m with
  | nil => simp [lookupA] at h
  | cons kv rest ih =>
    obtain ⟨k0, v0⟩ := kv
    by_cases hk : k0 = k
    · subst hk
      rw [lookupA, if_pos rfl] at h
      injection h with h
      subst h
      exact List.mem_cons_self _ _
    · rw [lookupA, if_neg hk] at h
      exact List.mem_cons_of_mem _ (ih h)

theorem lookupA_eq_none_iff {m : List (JStr × α)} {k : JStr} :
    lookupA m k = none ↔ k ∉ m.map Prod.fst := by
  induction m with
  | nil => simp [lookupA]
  | cons kv rest ih =>
    obtain ⟨k0, v0⟩ := kv
    by_cases hk : k0 = k
    · subst hk
      constructor
      · intro h
        rw [lookupA, if_pos rfl] at h
        exact (Option.some_ne_none v0 h).elim
      · intro h
        exact (h (by rw [List.map_cons]; exact List.mem_cons_self _ _)).elim
    · rw [lookupA, if_neg hk, ih, List.map_cons]
      constructor
      · intro h hmem
        rcases List.mem_cons.mp hmem with h1 | h1
        · exact hk h1.symm
        · exact h h1
      · intro h hmem
        exact h (List.mem_cons_of_mem _ hmem)

theorem lookupA_extend {m m2 : List (JStr × α)} {k : JStr} {v : α}
    (h : lookupA m k = some v) : lookupA (m ++ m2) k = some v := by
  rw [lookupA_append, h]; rfl

theorem lookupA_append_fresh {m : List (JStr × α)} {k : JStr} (v : α)
    (h : lookupA m k = none) : lookupA (m ++ [(k, v)]) k = some v := by
  rw [lookupA_append, h]
  simp [lookupA, Option.or]

theorem hasKeyA_false_iff {m : List (JStr × α)} {k : JStr} :
    hasKeyA m k = false ↔ lookupA m k = none := by
  unfold hasKeyA
  cases lookupA m k <;> simp

theorem hasKeyA_extend {m m2 : List (JStr × α)} {k : JStr}
    (h : hasKeyA m k = true) : hasKeyA (m ++ m2) k = true := by
  unfold hasKeyA at h ⊢
  cases hl : lookupA m k with
  | none => rw [hl] at h; simp at h
  | some v => rw [lookupA_extend hl]; rfl

theorem mem_setAddU {l : List JStr} {k x : JStr} :
    x ∈ setAddU l k ↔ x ∈ l ∨ x = k := by
  unfold setAddU
  by_cases h : k ∈ l
  · simp only [if_pos h]
    constructor
    · exact Or.inl
    · rintro (hx | hx)
      · exact hx
      · exact hx ▸ h
  · simp [if_neg h]

theorem getLast?_mem {α : Type} : ∀ {l : List α} {a : α}, l.getLast? = some a → a ∈ l := by
  intro l
  induction l with
  | nil => intro a h; simp at h
  | cons x rest ih =>
    intro a h
    cases rest with
    | nil =>
      rw [List.getLast?_singleton] at h
      injection h with h
      simp [h]
    | cons y t =>
      rw [List.getLast?_cons_cons] at h
      exact List.mem_cons_of_mem _ (ih h)

/-! ### Decimal rendering and parsing -/

theorem natDigitsAux_append (fuel : Nat) :
    ∀ (n : Nat) (acc : List Char),
      natDigitsAux fuel n acc = natDigitsAux fuel n [] ++ acc := by
  induction fuel with
  | zero => intro n acc; simp [natDigitsAux]
  | succ fuel ih =>
    intro n acc
    by_cases h : n < 10
    · simp [natDigitsAux, h]
    · simp only [natDigitsAux, if_neg h]
      rw [ih (n / 10) (Nat.digitChar (n % 10) :: acc),
        ih (n / 10) [Nat.digitChar (n % 10)]]
      simp

theorem digitChar_isDigit {d : Nat} (h : d < 10) : (Nat.digitChar d).isDigit := by
  interval_cases d <;> decide

theorem digitChar_val {d : Nat} (h : d < 10) :
    (Nat.digitChar d).toNat - '0'.toNat = d := by
  interval_cases d <;> decide

theorem digitsToNat_nil : digitsToNat [] = 0 := rfl

theorem digitsToNat_append_singleton (l : List Char) (c : Char) :
    digitsToNat (l ++ [c]) = digitsToNat l * 10 + (c.toNat - '0'.toNat) := by
  simp [digitsToNat, List.foldl_append]

theorem digitsToNat_natDigitsAux (fuel : Nat) :
    ∀ n : Nat, n < 10 ^ fuel → digitsToNat (natDigitsAux fuel n []) = n := by
  induction fuel with
  | zero =>
    intro n hn
    interval_cases n
    simp [natDigitsAux, digitsToNat]
  | succ fuel ih =>
    intro n hn
    by_cases h : n < 10
    · simp only [natDigitsAux, if_pos h]
      have : digitsToNat [Nat.digitChar n] = (Nat.digitChar n).toNat - '0'.toNat := by
        simp [digitsToNat]
      rw [this, digitChar_val h]
    · simp only [natDigitsAux, if_neg h]
      rw [natDigitsAux_append]
      rw [digitsToNat_append_singleton, digitChar_val (Nat.mod_lt n (by norm_num))]
      have hdiv : n / 10 < 10 ^ fuel := by
        rw [Nat.div_lt_iff_lt_mul (by norm_num : 0 < 10)]
        calc n < 10 ^ (fuel + 1) := hn
        _ = 10 ^ fuel * 10 := by ring
      rw [ih (n / 10) hdiv]
      omega

theorem natDigits_val (n : Nat) : digitsToNat (natDigits n) = n := by
  have h1 : n < 10 ^ n := Nat.lt_pow_self (by norm_num) n
  have h2 : (10 : Nat) ^ n ≤ 10 ^ (n + 1) :=
    Nat.pow_le_pow_right (by norm_num) (Nat.le_succ n)
  exact digitsToNat_natDigitsAux (n + 1) n (lt_of_lt_of_le h1 h2)

theorem natDigitsAux_all_digits (fuel : Nat) :
    ∀ (n : Nat) (acc : List Char), (∀ c ∈ acc, c.isDigit) →
      ∀ c ∈ natDigitsAux fuel n acc, c.isDigit := by
  induction fuel with
  | zero => intro n acc hacc; simpa [natDigitsAux] using hacc
  | succ fuel ih =>
    intro n acc hacc c hc
    by_cases h : n < 10
    · simp only [natDigitsAux, if_pos h] at hc
      rcases List.mem_cons.mp hc with h1 | h1
      · exact h1 ▸ digitChar_isDigit h
      · exact hacc c h1
    · simp only [natDigitsAux, if_neg h] at hc
      refine ih (n / 10) _ ?_ c hc
      intro d hd
      rcases List.mem_cons.mp hd with h1 | h1
      · exact h1 ▸ digitChar_isDigit (Nat.mod_lt n (by norm_num))
      · exact hacc d h1

theorem natDigits_all_digits (n : Nat) : ∀ c ∈ natDigits n, c.isDigit :=
  natDigitsAux_all_digits (n + 1) n [] (by simp)

theorem natDigitsAux_cons_ne_nil (fuel : Nat) :
    ∀ (n : Nat) (c : Char) (acc : List Char),
      natDigitsAux fuel n (c :: acc) ≠ [] := by
  induction fuel with
  | zero => intro n c acc; simp [natDigitsAux]
  | succ fuel ih =>
    intro n c acc
    by_cases h : n < 10
    · simp [natDigitsAux, h]
    · simp only [natDigitsAux, if_neg h]
      exact ih _ _ _

theorem natDigits_ne_nil (n : Nat) : natDigits n ≠ [] := by
  unfold natDigits
  by_cases h : n < 10
  · simp [natDigitsAux, h]
  · simp only [natDigitsAux, if_neg h]
    exact natDigitsAux_cons_ne_nil _ _ _ _

theorem takeWhile_all {p : Char → Bool} :
    ∀ l : List Char, (∀ c ∈ l, p c) → l.takeWhile p = l := by
  intro l h
  induction l with
  | nil => rfl
  | cons c rest ih =>
    rw [List.takeWhile_cons, if_pos (h c (List.mem_cons_self c rest))]
    rw [ih (fun d hd => h d (List.mem_cons_of_mem c hd))]

theorem isDigit_not_space {c : Char} (h : c.isDigit) : isJsSpace c = false := by
  by_contra hc
  rw [Bool.not_eq_false] at hc
  simp only [isJsSpace, Bool.or_eq_true, decide_eq_true_eq] at hc
  rcases hc with ((h1 | h1) | h1) | h1 <;> (subst h1; exact absurd h (by decide))

theorem isDigit_ne_dash {c : Char} (h : c.isDigit) : c ≠ '-' :=
  fun hc => absurd (hc ▸ h) (by decide)

theorem isDigit_ne_plus {c : Char} (h : c.isDigit) : c ≠ '+' :=
  fun hc => absurd (hc ▸ h) (by decide)

theorem parseDigitsPref_natDigits (n : Nat) :
    parseDigitsPref (natDigits n) = some n := by
  unfold parseDigitsPref
  rw [takeWhile_all (natDigits n) (natDigits_all_digits n)]
  simp only [if_neg (natDigits_ne_nil n), natDigits_val]

theorem jsParseInt_natDigits (n : Nat) : jsParseInt (natDigits n) = some (n : Int) := by
  obtain ⟨d, rest, hd⟩ : ∃ d rest, natDigits n = d :: rest := by
    rcases hn : natDigits n with _ | ⟨d, rest⟩
    · exact absurd hn (natDigits_ne_nil n)
    · exact ⟨d, rest, rfl⟩
  have hdig : d.isDigit := natDigits_all_digits n d (by rw [hd]; exact List.mem_cons_self d rest)
  have hdw : List.dropWhile isJsSpace (d :: rest) = d :: rest := by
    rw [List.dropWhile_cons, if_neg (by simp [isDigit_not_space hdig])]
  simp only [jsParseInt]
  rw [hd, hdw]
  simp only [List.headD_cons]
  split_ifs with h1 h2
  · exact absurd h1 (isDigit_ne_dash hdig)
  · exact absurd h2 (isDigit_ne_plus hdig)
  · rw [← hd, parseDigitsPref_natDigits]; rfl

/-! ### Splitting on the separator -/

theorem splitOnChar_ne_nil (sep : Char) : ∀ s : JStr, splitOnChar sep s ≠ [] := by
  intro s
  induction s with
  | nil => simp [splitOnChar]
  | cons c rest ih =>
    simp only [splitOnChar]
    by_cases h : c = sep
    · simp [h]
    · simp only [if_neg h]
      rcases hr : splitOnChar sep rest with _ | ⟨hh, tt⟩
      · exact absurd hr ih
      · simp

theorem splitOnChar_no_sep (sep : Char) :
    ∀ s : JStr, sep ∉ s → splitOnChar sep s = [s] := by
  intro s h
  induction s with
  | nil => rfl
  | cons c rest ih =>
    have hc : c ≠ sep := fun hc => h (hc ▸ List.mem_cons_self c rest)
    have hrest : sep ∉ rest := fun hr => h (List.mem_cons_of_mem c hr)
    simp only [splitOnChar, if_neg hc, ih hrest]

theorem splitOnChar_append_sep (sep : Char) :
    ∀ (x y : JStr), sep ∉ x →
      splitOnChar sep (x ++ sep :: y) = x :: splitOnChar sep y := by
  intro x y hx
  induction x with
  | nil => simp [splitOnChar]
  | cons c restx ih =>
    have hc : c ≠ sep := fun hc => hx (hc ▸ List.mem_cons_self c restx)
    have hrest : sep ∉ restx := fun hr => hx (List.mem_cons_of_mem c hr)
    simp only [List.cons_append, splitOnChar, if_neg hc, List.append_eq, ih hrest]

theorem natDigits_no_at (n : Nat) : '@' ∉ natDigits n := by
  intro h
  have := natDigits_all_digits n '@' h
  simp at this

/-- Round trip of the canonical string form, for actor ids free of the
separator character. -/
theorem fromString_toString (o : OpId) (h : '@' ∉ o.actor) :
    OpId.fromString (OpId.toString o) = (some (o.ctr : Int), some o.actor) := by
  unfold OpId.fromString OpId.toString
  rw [splitOnChar_append_sep '@' (natDigits o.ctr) o.actor (natDigits_no_at o.ctr),
    splitOnChar_no_sep '@' o.actor h]
  simp only [List.headD_cons, List.get?]
  rw [jsParseInt_natDigits]

theorem isCausallyReady_eq_false_of_missing {V : Type} (m : List (JStr × Op V))
    (op : Op V) (p : JStr) (hp : p ∈ op.preds) (h : hasKeyA m p = false) :
    isCausallyReady m op = false := by
  by_contra hne
  rw [Bool.not_eq_false] at hne
  unfold isCausallyReady at hne
  rw [List.all_eq_true] at hne
  have := hne p hp
  rw [h] at this
  exact absurd this (by decide)

/-! ### Injectivity of the canonical key -/

theorem append_sep_inj {sep : Char} :
    ∀ (l1 l2 r1 r2 : JStr), sep ∉ l1 → sep ∉ l2 →
      l1 ++ sep :: r1 = l2 ++ sep :: r2 → l1 = l2 ∧ r1 = r2 := by
  intro l1
  induction l1 with
  | nil =>
    intro l2 r1 r2 _ h2 h
    cases l2 with
    | nil =>
      rw [List.nil_append, List.nil_append] at h
      injection h with _ h
      exact ⟨rfl, h⟩
    | cons c t =>
      rw [List.nil_append, List.cons_append] at h
      injection h with hc _
      exact absurd (hc ▸ List.mem_cons_self c t) h2
  | cons c t ih =>
    intro l2 r1 r2 h1 h2 h
    cases l2 with
    | nil =>
      rw [List.nil_append, List.cons_append] at h
      injection h with hc _
      exact absurd (hc ▸ List.mem_cons_self c t) h1
    | cons c2 t2 =>
      rw [List.cons_append, List.cons_append] at h
      injection h with hc hrest
      subst hc
      obtain ⟨hl, hr⟩ := ih t2 r1 r2
        (fun hm => h1 (List.mem_cons_of_mem c hm))
        (fun hm => h2 (List.mem_cons_of_mem c hm)) hrest
      exact ⟨hl ▸ rfl, hr⟩

theorem natDigits_inj {a b : Nat} (h : natDigits a = natDigits b) : a = b := by
  have := natDigits_val a
  rw [h, natDigits_val b] at this
  exact this.symm

theorem toString_inj {o1 o2 : OpId} (h : OpId.toString o1 = OpId.toString o2) :
    o1 = o2 := by
  unfold OpId.toString at h
  obtain ⟨hd, ha⟩ := append_sep_inj (natDigits o1.ctr) (natDigits o2.ctr)
    o1.actor o2.actor (natDigits_no_at o1.ctr) (natDigits_no_at o2.ctr) h
  obtain ⟨c1, a1⟩ := o1
  obtain ⟨c2, a2⟩ := o2
  simp only at hd ha
  rw [natDigits_inj hd, ha]

/-! ### The JS string order -/

theorem extends_refl (s : Replica V) : Extends s s :=
  ⟨rfl, rfl, rfl, rfl, le_refl _, fun _ _ h => h⟩

theorem extends_trans {s1 s2 s3 : Replica V}
    (h12 : Extends s1 s2) (h23 : Extends s2 s3) : Extends s1 s3 := by
  obtain ⟨a12, u12, us12, rs12, c12, e12⟩ := h12
  obtain ⟨a23, u23, us23, rs23, c23, e23⟩ := h23
  exact ⟨a23.trans a12, u23.trans u12, us23.trans us12, rs23.trans rs12,
    le_trans c12 c23, fun k v h => e23 k v (e12 k v h)⟩

theorem extends_lobby {s : Replica V} {l : List (JStr × Op V)} :
    Extends s { s with lobby := l } :=
  ⟨rfl, rfl, rfl, rfl, le_refl _, fun _ _ h => h⟩

theorem admittedState_appliedOps (op : Op V) (s : Replica V) (preSort cache1) :
    (admittedState op s preSort cache1).appliedOps =
      s.appliedOps ++ [(OpId.toString op.opId, op)] := rfl

theorem extends_admitted {op : Op V} {s : Replica V} {preSort cache1} :
    Extends s (admittedState op s preSort cache1) := by
  refine ⟨rfl, rfl, rfl, rfl, le_max_left _ _, ?_⟩
  intro k v h
  rw [admittedState_appliedOps]
  exact lookupA_extend h

theorem coreInv_lobbyUpdate {s : Replica V} {l : List (JStr × Op V)}
    (hc : CoreInv s) : CoreInv { s with lobby := l } :=
  ⟨hc.wellKeyed, hc.nodupKeys, hc.clockBound, hc.headsSub⟩

theorem coreInv_admitted {op : Op V} {s : Replica V} {preSort : List (Op V × Meta)}
    {cache1 : List (JStr × List (Op V))} (hc : CoreInv s)
    (hfresh : hasKeyA s.appliedOps (OpId.toString op.opId) = false) :
    CoreInv (admittedState op s preSort cache1) := by
  have hnone := hasKeyA_false_iff.mp hfresh
  have hnotin : OpId.toString op.opId ∉ s.appliedOps.map Prod.fst :=
    lookupA_eq_none_iff.mp hnone
  constructor
  · intro kv hkv
    rw [admittedState_appliedOps] at hkv
    rcases List.mem_append.mp hkv with hm | hm
    · exact hc.wellKeyed kv hm
    · rw [List.mem_singleton.mp hm]
  · rw [admittedState_appliedOps, List.map_append]
    rw [List.nodup_append]
    refine ⟨hc.nodupKeys, List.nodup_singleton _, ?_⟩
    intro a ha hb
    rw [List.map_cons, List.map_nil, List.mem_singleton] at hb
    have hab : a = OpId.toString op.opId := hb
    exact hnotin (hab ▸ ha)
  · intro kv hkv
    rw [admittedState_appliedOps] at hkv
    show kv.2.opId.ctr ≤ max s.ctr op.opId.ctr
    rcases List.mem_append.mp hkv with hm | hm
    · exact le_trans (hc.clockBound kv hm) (le_max_left _ _)
    · rw [List.mem_singleton.mp hm]
      exact le_max_right _ _
  · intro h hh
    show hasKeyA (s.appliedOps ++ [(OpId.toString op.opId, op)]) h = true
    have hh2 : h ∈ advanceHeads op s.heads (OpId.toString op.opId) := hh
    unfold advanceHeads at hh2
    rcases mem_setAddU.mp hh2 with hm | hm
    · exact hasKeyA_extend (hc.headsSub h (List.mem_filter.mp hm).1)
    · subst hm
      unfold hasKeyA
      rw [lookupA_append_fresh op hnone]
      rfl

theorem stackInv_extends {s s' : Replica V} (hs : StackInv s) (he : Extends s s') :
    StackInv s' := by
  obtain ⟨ha, _, hu, hr, _, hext⟩ := he
  constructor
  · rw [hu, ha]
    intro u hm
    obtain ⟨i, p, v, heq, hact, hlook⟩ := hs.undoOwn u hm
    exact ⟨i, p, v, heq, hact, hext _ _ hlook⟩
  · rw [hr, ha]
    intro r hm
    obtain ⟨i, p, a, heq, hact, hlook, ui, up, uv, halook, hauact⟩ := hs.redoOwn r hm
    exact ⟨i, p, a, heq, hact, hext _ _ hlook, ui, up, uv, hext _ _ halook, hauact⟩

theorem addLoop_preserves :
    ∀ (fuel : Nat) (wl : List (Op V × Bool)) (s s' : Replica V),
      CoreInv s → addLoop fuel wl s = some s' → CoreInv s' ∧ Extends s s' := by
  intro fuel
  induction fuel with
  | zero => intro wl s s' _ h; exact absurd h (by simp [addLoop])
  | succ fuel ih =>
    intro wl s s' hc h
    cases wl with
    | nil =>
      rw [addLoop] at h
      injection h with h
      subst h
      exact ⟨hc, extends_refl s⟩
    | cons entry rest =>
      obtain ⟨op, skip⟩ := entry
      simp only [addLoop] at h
      by_cases h1 : hasKeyA s.appliedOps (OpId.toString op.opId) = true
      · rw [if_pos h1] at h
        exact ih rest s s' hc h
      · rw [if_neg h1] at h
        by_cases h2 : (!skip && !isCausallyReady s.appliedOps op) = true
        · rw [if_pos h2] at h
          obtain ⟨hcore, hext⟩ := ih rest _ s' (coreInv_lobbyUpdate hc) h
          exact ⟨hcore, extends_trans extends_lobby hext⟩
        · rw [if_neg h2] at h
          split at h
          · exact absurd h (by simp)
          · obtain ⟨hcore, hext⟩ :=
              ih _ _ s' (coreInv_admitted hc (by simpa using h1)) h
            exact ⟨hcore, extends_trans extends_admitted hext⟩

theorem applyOps_single {op : Op V} {s s' : Replica V}
    (h : applyOps [op] s = some s') : add op s = some s' := by
  simp only [applyOps] at h
  split at h
  · exact absurd h (by simp)
  · rename_i s1 hadd
    injection h with h
    exact h ▸ hadd

theorem applyOps_preserves :
    ∀ (ops : List (Op V)) (s s' : Replica V),
      CoreInv s → applyOps ops s = some s' → CoreInv s' ∧ Extends s s' := by
  intro ops
  induction ops with
  | nil =>
    intro s s' hc h
    simp only [applyOps] at h
    injection h with h
    subst h
    exact ⟨hc, extends_refl s⟩
  | cons op rest ih =>
    intro s s' hc h
    simp only [applyOps] at h
    split at h
    · exact absurd h (by simp)
    · rename_i s1 hadd
      unfold add at hadd
      obtain ⟨hc1, hext1⟩ := addLoop_preserves _ _ s s1 hc hadd
      obtain ⟨hc2, hext2⟩ := ih s1 s' hc1 h
      exact ⟨hc2, extends_trans hext1 hext2⟩

/-- The transfer of the core invariant to a state differing only in the
local stacks. -/
theorem coreInv_stacks {s : Replica V} {u r : List (Op V)} (hc : CoreInv s) :
    CoreInv { s with undoStack := u, redoStack := r } :=
  ⟨hc.wellKeyed, hc.nodupKeys, hc.clockBound, hc.headsSub⟩

/-- A freshly ticked OpId is never already applied: the clock dominates
every applied counter and the canonical key is injective. -/
theorem fresh_key {s : Replica V} (hc : CoreInv s) :
    hasKeyA s.appliedOps (OpId.toString (tick s)) = false := by
  rw [hasKeyA_false_iff]
  cases hl : lookupA s.appliedOps (OpId.toString (tick s)) with
  | none => rfl
  | some o =>
    exfalso
    have hmem := lookupA_mem hl
    have hkey : OpId.toString (tick s) = OpId.toString o.opId := hc.wellKeyed _ hmem
    have hid : tick s = o.opId := toString_inj hkey
    have hctr := hc.clockBound _ hmem
    rw [← hid] at hctr
    simp [tick] at hctr

/-- A locally generated op (preds = current heads) is causally ready. -/
theorem local_ready {s : Replica V} (hc : CoreInv s) {op : Op V}
    (hp : op.preds = s.heads) : isCausallyReady s.appliedOps op = true := by
  unfold isCausallyReady
  rw [hp, List.all_eq_true]
  exact hc.headsSub

/-- Splitting the first `add` of a fresh, causally ready op: its effect is
applied and the loop continues on the newly-ready lobby entries. -/
theorem add_fresh_step {op : Op V} {s1 s' : Replica V}
    (hfresh : hasKeyA s1.appliedOps (OpId.toString op.opId) = false)
    (hready : isCausallyReady s1.appliedOps op = true)
    (h : add op s1 = some s') :
    ∃ preSort cache1,
      computeTerminalHeads s1.appliedOps op s1.useCache (bfsFuel s1.appliedOps)
        (advanceHeads op s1.heads (OpId.toString op.opId)) s1.cache =
        some (preSort, cache1) ∧
      addLoop (s1.lobby.length + 1) ((readyOps op s1).map (fun o => (o, true)))
        (admittedState op s1 preSort cache1) = some s' := by
  have h2 : addLoop (s1.lobby.length + 1 + 1) [(op, false)] s1 = some s' := h
  rw [addLoop] at h2
  rw [if_neg (by simp [hfresh])] at h2
  rw [if_neg (by simp [hready])] at h2
  split at h2
  · exact absurd h2 (by simp)
  · rename_i preSort cache1 hct
    exact ⟨preSort, cache1, hct, by simpa using h2⟩

/-- Stack discipline after a local `set`/`delete` is admitted. -/
theorem stack_admitted_set {s : Replica V} (hs : StackInv s) (hc : CoreInv s)
    (w : Option V) (preSort : List (Op V × Meta)) (cache1 : List (JStr × List (Op V))) :
    StackInv (admittedState (Op.set (tick s) s.heads w)
      { s with undoStack := s.undoStack ++ [Op.set (tick s) s.heads w],
               redoStack := [] } preSort cache1) := by
  have hfresh := hasKeyA_false_iff.mp (fresh_key hc)
  constructor
  · intro u hm
    have hm2 : u ∈ s.undoStack ++ [Op.set (tick s) s.heads w] := hm
    rcases List.mem_append.mp hm2 with hold | hnew
    · obtain ⟨i, p, v0, heq, hact, hlook⟩ := hs.undoOwn u hold
      exact ⟨i, p, v0, heq, hact,
        by rw [admittedState_appliedOps]; exact lookupA_extend hlook⟩
    · refine ⟨tick s, s.heads, w, List.mem_singleton.mp hnew, rfl, ?_⟩
      rw [admittedState_appliedOps, List.mem_singleton.mp hnew]
      exact lookupA_append_fresh _ hfresh
  · intro r hm
    have hm2 : r ∈ ([] : List (Op V)) := hm
    exact absurd hm2 (List.not_mem_nil r)

/-- Stack discipline after a local `undo` is admitted. -/
theorem stack_admitted_undo {s : Replica V} (hs : StackInv s) (hc : CoreInv s)
    {u0 : Op V} (hu0 : s.undoStack.getLast? = some u0)
    (preSort : List (Op V × Meta)) (cache1 : List (JStr × List (Op V))) :
    StackInv (admittedState (Op.restore (tick s) s.heads u0.opId)
      { s with undoStack := s.undoStack.dropLast,
               redoStack := s.redoStack ++ [Op.restore (tick s) s.heads u0.opId] }
      preSort cache1) := by
  have hfresh := hasKeyA_false_iff.mp (fresh_key hc)
  constructor
  · intro u hm
    have hm2 : u ∈ s.undoStack.dropLast := hm
    obtain ⟨i, p, v0, heq, hact, hlook⟩ := hs.undoOwn u (List.dropLast_subset _ hm2)
    exact ⟨i, p, v0, heq, hact,
      by rw [admittedState_appliedOps]; exact lookupA_extend hlook⟩
  · intro r hm
    have hm2 : r ∈ s.redoStack ++ [Op.restore (tick s) s.heads u0.opId] := hm
    rcases List.mem_append.mp hm2 with hold | hnew
    · obtain ⟨i, p, a, heq, hact, hlook, ui, up, uv, halook, hau⟩ := hs.redoOwn r hold
      exact ⟨i, p, a, heq, hact,
        by rw [admittedState_appliedOps]; exact lookupA_extend hlook,
        ui, up, uv,
        by rw [admittedState_appliedOps]; exact lookupA_extend halook, hau⟩
    · obtain ⟨i, p, v0, hequ, hact, hlook⟩ := hs.undoOwn u0 (getLast?_mem hu0)
      subst hequ
      refine ⟨tick s, s.heads, (Op.set i p v0).opId, List.mem_singleton.mp hnew, rfl, ?_,
        i, p, v0, ?_, hact⟩
      · rw [admittedState_appliedOps, List.mem_singleton.mp hnew]
        exact lookupA_append_fresh _ hfresh
      · rw [admittedState_appliedOps]
        exact lookupA_extend hlook

/-- Stack discipline after a local `redo` is admitted: the resolved
terminal set op pushed on the undo stack is applied and owned. -/
theorem stack_admitted_redo {s : Replica V} (hs : StackInv s)
    {r0 : Op V} {ui : OpId} {up : List JStr} {uv : Option V}
    (hterm : lookupA s.appliedOps (OpId.toString ui) = some (Op.set ui up uv))
    (hau : ui.actor = s.actorId)
    (preSort : List (Op V × Meta)) (cache1 : List (JStr × List (Op V))) :
    StackInv (admittedState (Op.restore (tick s) s.heads r0.opId)
      { s with undoStack := s.undoStack ++ [Op.set ui up uv],
               redoStack := s.redoStack.dropLast } preSort cache1) := by
  constructor
  · intro u hm
    have hm2 : u ∈ s.undoStack ++ [Op.set ui up uv] := hm
    rcases List.mem_append.mp hm2 with hold | hnew
    · obtain ⟨i, p, v0, heq, hact, hlook⟩ := hs.undoOwn u hold
      exact ⟨i, p, v0, heq, hact,
        by rw [admittedState_appliedOps]; exact lookupA_extend hlook⟩
    · refine ⟨ui, up, uv, List.mem_singleton.mp hnew, hau, ?_⟩
      rw [admittedState_appliedOps, List.mem_singleton.mp hnew]
      exact lookupA_extend hterm
  · intro r hm
    have hm2 : r ∈ s.redoStack.dropLast := hm
    obtain ⟨i, p, a, heq, hact, hlook, wi, wp, wv, halook, hwa⟩ :=
      hs.redoOwn r (List.dropLast_subset _ hm2)
    exact ⟨i, p, a, heq, hact,
      by rw [admittedState_appliedOps]; exact lookupA_extend hlook,
      wi, wp, wv,
      by rw [admittedState_appliedOps]; exact lookupA_extend halook, hwa⟩

/-- The redo resolver follows exactly two applied anchors: the popped
restore and then its set-op anchor. -/
theorem resolve_redo {s : Replica V} {i : OpId} {p : List JStr} {a : OpId}
    {r0 : Op V} (heqr : r0 = Op.restore i p a)
    (hlookr : lookupA s.appliedOps (OpId.toString i) = some r0)
    {ui : OpId} {up : List JStr} {uv : Option V}
    (halook : lookupA s.appliedOps (OpId.toString a) = some (Op.set ui up uv)) :
    resolveToTerminalOp s.appliedOps (s.appliedOps.length + 1) r0.opId =
      some (Op.set ui up uv) := by
  obtain ⟨len', hlen⟩ : ∃ n, s.appliedOps.length = n + 1 := by
    cases hm : s.appliedOps with
    | nil => rw [hm] at hlookr; exact absurd hlookr (by simp [lookupA])
    | cons x t => exact ⟨t.length, rfl⟩
  have hop : r0.opId = i := by subst heqr; rfl
  rw [hop]
  simp only [resolveToTerminalOp, hlookr, heqr]
  rw [hlen]
  simp only [resolveToTerminalOp, halook]

/-- Applying one fresh, ready, locally generated op preserves the full
invariant, given the stack discipline of the admitted intermediate state. -/
theorem local_apply_inv (op : Op V) (s1 : Replica V) {s' : Replica V}
    (hc1 : CoreInv s1)
    (hfresh : hasKeyA s1.appliedOps (OpId.toString op.opId) = false)
    (hready : isCausallyReady s1.appliedOps op = true)
    (hstack : ∀ preSort cache1, StackInv (admittedState op s1 preSort cache1))
    (h : applyOps [op] s1 = some s') :
    Inv s' ∧ s'.actorId = s1.actorId := by
  have hadd := applyOps_single h
  obtain ⟨preSort, cache1, hct, hloop⟩ := add_fresh_step hfresh hready hadd
  obtain ⟨hcore', hext⟩ := addLoop_preserves _ _ _ s' (coreInv_admitted hc1 hfresh) hloop
  exact ⟨⟨hcore', stackInv_extends (hstack preSort cache1) hext⟩, hext.1⟩

/-- Every public call preserves the invariant and the actor identity. -/
theorem step_preserves {s s' : Replica V} {a : Action V} (hI : Inv s)
    (h : step s a = some s') : Inv s' ∧ s'.actorId = s.actorId := by
  obtain ⟨hc, hs⟩ := hI
  cases a with
  | deliver ops =>
    obtain ⟨hcore, hext⟩ := applyOps_preserves ops s s' hc h
    exact ⟨⟨hcore, stackInv_extends hs hext⟩, hext.1⟩
  | setv v =>
    have h2 : applyOps [Op.set (tick s) s.heads (some v)]
        { s with undoStack := s.undoStack ++ [Op.set (tick s) s.heads (some v)],
                 redoStack := [] } = some s' := h
    exact local_apply_inv (Op.set (tick s) s.heads (some v))
      { s with
          undoStack := s.undoStack ++ [Op.set (tick s) s.heads (some v)],
          redoStack := [] }
      (coreInv_stacks hc) (fresh_key (coreInv_stacks hc))
      (local_ready (coreInv_stacks hc) rfl) (stack_admitted_set hs hc (some v)) h2
  | del =>
    by_cases hv : s.values.length = 0
    · have h2 : some s = some s' := by
        have h3 : deleteValue s = some s' := h
        rw [deleteValue, if_pos hv] at h3
        exact h3
      injection h2 with h2
      subst h2
      exact ⟨⟨hc, hs⟩, rfl⟩
    · have h2 : applyOps [Op.set (tick s) s.heads none]
          { s with undoStack := s.undoStack ++ [Op.set (tick s) s.heads none],
                   redoStack := [] } = some s' := by
        have h3 : deleteValue s = some s' := h
        rw [deleteValue, if_neg hv] at h3
        exact h3
      exact local_apply_inv (Op.set (tick s) s.heads none)
        { s with
            undoStack := s.undoStack ++ [Op.set (tick s) s.heads none],
            redoStack := [] }
        (coreInv_stacks hc) (fresh_key (coreInv_stacks hc))
        (local_ready (coreInv_stacks hc) rfl) (stack_admitted_set hs hc none) h2
  | undo =>
    have h3 : undoOp s = some s' := h
    rw [undoOp] at h3
    split at h3
    · injection h3 with h3
      subst h3
      exact ⟨⟨hc, hs⟩, rfl⟩
    · rename_i u0 hu0
      exact local_apply_inv (Op.restore (tick s) s.heads u0.opId)
        { s with
            undoStack := s.undoStack.dropLast,
            redoStack := s.redoStack ++ [Op.restore (tick s) s.heads u0.opId] }
        (coreInv_stacks hc) (fresh_key (coreInv_stacks hc))
        (local_ready (coreInv_stacks hc) rfl) (stack_admitted_undo hs hc hu0) h3
  | redo =>
    have h3 : redoOp s = some s' := h
    rw [redoOp] at h3
    split at h3
    · injection h3 with h3
      subst h3
      exact ⟨⟨hc, hs⟩, rfl⟩
    · rename_i r0 hr0
      obtain ⟨i, p, a, heqr, hact, hlookr, ui, up, uv, halook, hau⟩ :=
        hs.redoOwn r0 (getLast?_mem hr0)
      have hkey : OpId.toString a = OpId.toString ui := hc.wellKeyed _ (lookupA_mem halook)
      have halook2 : lookupA s.appliedOps (OpId.toString ui) = some (Op.set ui up uv) := by
        rw [← hkey]; exact halook
      have hres := resolve_redo heqr hlookr halook
      rw [hres] at h3
      exact local_apply_inv (Op.restore (tick s) s.heads r0.opId)
        { s with
            undoStack := s.undoStack ++ [Op.set ui up uv],
            redoStack := s.redoStack.dropLast }
        (coreInv_stacks hc) (fresh_key (coreInv_stacks hc))
        (local_ready (coreInv_stacks hc) rfl) (stack_admitted_redo hs halook2 hau) h3

/-- Runs preserve the invariant and the actor identity. -/
theorem run_preserves :
    ∀ (acts : List (Action V)) (s s' : Replica V),
      Inv s → run s acts = some s' → Inv s' ∧ s'.actorId = s.actorId := by
  intro acts
  induction acts with
  | nil =>
    intro s s' hI h
    simp only [run] at h
    injection h with h
    subst h
    exact ⟨hI, rfl⟩
  | cons a rest ih =>
    intro s s' hI h
    simp only [run] at h
    split at h
    · exact absurd h (by simp)
    · rename_i s1 hstep
      obtain ⟨hI1, ha1⟩ := step_preserves hI hstep
      obtain ⟨hI2, ha2⟩ := ih s1 s' hI1 h
      exact ⟨hI2, ha2.trans ha1⟩

/-- A fresh replica satisfies the invariant. -/
theorem inv_create (V : Type) (a : JStr) (u : Bool) : Inv (create V a u) := by
  refine ⟨⟨?_, ?_, ?_, ?_⟩, ⟨?_, ?_⟩⟩ <;> simp [create]

/-- Any reachable state satisfies the invariant and keeps its actor id. -/
theorem reachable_inv {V : Type} {a : JStr} {u : Bool} {s : Replica V}
    (h : ReachableFrom (create V a u) s) : Inv s ∧ s.actorId = a := by
  obtain ⟨acts, hrun⟩ := h
  exact run_preserves acts _ s (inv_create V a u) hrun

/-! ### Resolution trace shape -/

theorem head?_append_left {α : Type} {l : List α} (l2 : List α) (h : l ≠ []) :
    (l ++ l2).head? = l.head? := by
  cases l with
  | nil => exact absurd rfl h
  | cons x t => rfl

theorem isCausallyReady_extend {m m2 : List (JStr × Op V)} {op : Op V}
    (h : isCausallyReady m op = true) : isCausallyReady (m ++ m2) op = true := by
  unfold isCausallyReady at h ⊢
  rw [List.all_eq_true] at h ⊢
  intro p hp
  exact hasKeyA_extend (h p hp)

theorem mem_insertOrdered {cmp : α → α → Int} {x y : α} :
    ∀ {l : List α}, x ∈ insertOrdered cmp y l ↔ x = y ∨ x ∈ l := by
  intro l
  induction l with
  | nil => simp [insertOrdered]
  | cons z t ih =>
    simp only [insertOrdered]
    split
    · simp only [List.mem_cons, ih]
      try tauto
    · simp only [List.mem_cons]
      try tauto

theorem mem_stableSortJS {cmp : α → α → Int} {x : α} :
    ∀ {l : List α}, x ∈ stableSortJS cmp l ↔ x ∈ l := by
  intro l
  induction l with
  | nil => simp [stableSortJS]
  | cons z t ih => simp [stableSortJS, mem_insertOrdered, ih]

theorem wellKeyed_lookupA {s : Replica V} (hc : CoreInv s) {k : JStr} {o : Op V}
    (h : lookupA s.appliedOps k = some o) : k = OpId.toString o.opId :=
  hc.wellKeyed _ (lookupA_mem h)

/-- Queue-loop invariant: every result entry's trace starts at the head
the loop was seeded with, and — when the cache is off — ends at the key of
the terminal op it delivers. -/
theorem bfsGo_shape {V : Type} {applied : List (JStr × Op V)} {cur : Op V}
    {uc : Bool} {cache : List (JStr × List (Op V))} (h0 : JStr)
    (hkeyed : ∀ (k : JStr) (o : Op V), lookupA applied k = some o →
      k = OpId.toString o.opId)
    (hpreds : ∀ kv ∈ applied, ∀ p ∈ (kv.2 : Op V).preds, hasKeyA applied p = true) :
    ∀ (fuel : Nat) (queue : List (JStr × Meta)) (acc result : List (Op V × Meta)),
      bfsGo applied cur uc cache fuel queue acc = some result →
      (∀ q ∈ queue, (((q : JStr × Meta).2.opIdTrace ++ [q.1]).head? = some h0) ∧
        (hasKeyA applied q.1 = true ∨ q.1 = OpId.toString cur.opId)) →
      (∀ e ∈ acc, ((e : Op V × Meta).2.opIdTrace.head? = some h0) ∧
        (uc = false → e.2.opIdTrace.getLast? = some (OpId.toString e.1.opId))) →
      ∀ e ∈ result, ((e : Op V × Meta).2.opIdTrace.head? = some h0) ∧
        (uc = false → e.2.opIdTrace.getLast? = some (OpId.toString e.1.opId)) := by
  intro fuel
  induction fuel with
  | zero =>
    intro queue acc result hb
    exact absurd hb (by simp [bfsGo])
  | succ fuel ih =>
    intro queue acc result hb hq hacc
    cases queue with
    | nil =>
      rw [bfsGo] at hb
      injection hb with hb
      subst hb
      exact hacc
    | cons qe restQ =>
      obtain ⟨k, meta⟩ := qe
      simp only [bfsGo] at hb
      split at hb
      · rename_i i pv vv hnext
        refine ih restQ _ result hb (fun q hm => hq q (List.mem_cons_of_mem _ hm)) ?_
        intro e hm
        rcases List.mem_append.mp hm with hold | hnew
        · exact hacc e hold
        · rw [List.mem_singleton.mp hnew]
          obtain ⟨hhead, hkey⟩ := hq (k, meta) (List.mem_cons_self _ _)
          refine ⟨hhead, ?_⟩
          intro _
          rw [List.getLast?_concat]
          have hk : k = OpId.toString (Op.set i pv vv : Op V).opId := by
            cases hlk : lookupA applied k with
            | some o =>
              rw [hlk] at hnext
              exact hnext ▸ hkeyed k o hlk
            | none =>
              rw [hlk] at hnext
              rcases hkey with hkt | hkc
              · rw [hasKeyA, hlk] at hkt
                exact absurd hkt (by simp)
              · have hkc2 : k = OpId.toString cur.opId := hkc
                simp only [Option.getD] at hnext
                rw [hkc2, hnext]
          rw [← hk]
      · rename_i i2 p2 anc hnext
        split at hb
        · exact absurd hb (by simp)
        · rename_i anchorOp hal
          have hanchmem := lookupA_mem hal
          have htr : meta.opIdTrace ++ [k] ≠ [] := by simp
          obtain ⟨hhead, _⟩ := hq (k, meta) (List.mem_cons_self _ _)
          by_cases huc : uc = true
          · rw [if_pos (by rw [huc])] at hb
            refine ih _ _ result hb ?_ ?_
            · intro q hm
              rcases List.mem_append.mp hm with hold | hnewq
              · exact hq q (List.mem_cons_of_mem _ hold)
              · obtain ⟨p, hp, hpe⟩ := List.mem_map.mp hnewq
                have hp2 : p ∈ anchorOp.preds := (List.mem_filter.mp hp).1
                subst hpe
                constructor
                · rw [head?_append_left _ htr]
                  exact hhead
                · exact Or.inl (hpreds _ hanchmem p hp2)
            · intro e hm
              rcases List.mem_append.mp hm with hold | hnewe
              · exact hacc e hold
              · obtain ⟨cp, hcp, hcpe⟩ := List.mem_flatMap.mp hnewe
                obtain ⟨v, hv, hve⟩ := List.mem_map.mp hcpe
                subst hve
                constructor
                · rw [head?_append_left _ htr]
                  exact hhead
                · intro huc0
                  exact absurd (huc.symm.trans huc0) (by decide)
          · rw [if_neg (by simpa using huc)] at hb
            refine ih _ _ result hb ?_ hacc
            intro q hm
            rcases List.mem_append.mp hm with hold | hnewq
            · exact hq q (List.mem_cons_of_mem _ hold)
            · obtain ⟨p, hp, hpe⟩ := List.mem_map.mp hnewq
              subst hpe
              constructor
              · rw [head?_append_left _ htr]
                exact hhead
              · exact Or.inl (hpreds _ hanchmem p hp)

/-- One head's resolution inherits the queue-loop shape; the in-place sort
of the cached branch only permutes the entries. -/
theorem resolveHeadOp_shape {V : Type} {applied : List (JStr × Op V)} {cur : Op V}
    {uc : Bool} {fuel : Nat} {cache : List (JStr × List (Op V))} {h0 : JStr}
    {headOp : Op V} {result : List (Op V × Meta)} {cache1 : List (JStr × List (Op V))}
    (hkeyed : ∀ (k : JStr) (o : Op V), lookupA applied k = some o →
      k = OpId.toString o.opId)
    (hpreds : ∀ kv ∈ applied, ∀ p ∈ (kv.2 : Op V).preds, hasKeyA applied p = true)
    (hres : resolveHeadOp applied cur uc fuel cache h0 headOp = some (result, cache1))
    (hkey : hasKeyA applied h0 = true ∨ h0 = OpId.toString cur.opId) :
    ∀ e ∈ result, ((e : Op V × Meta).2.opIdTrace.head? = some h0) ∧
      (uc = false → e.2.opIdTrace.getLast? = some (OpId.toString e.1.opId)) := by
  unfold resolveHeadOp at hres
  split at hres
  · exact absurd hres (by simp)
  · rename_i res0 hbf
    have hall := bfsGo_shape h0 hkeyed hpreds fuel _ _ _ hbf
      (by
        intro q hm
        rw [List.mem_singleton.mp hm]
        exact ⟨by simp, hkey⟩)
      (by simp)
    split at hres
    · obtain ⟨hr, -⟩ := Prod.mk.inj (Option.some.inj hres)
      intro e hm
      rw [← hr] at hm
      exact hall e (mem_stableSortJS.mp hm)
    · obtain ⟨hr, -⟩ := Prod.mk.inj (Option.some.inj hres)
      intro e hm
      rw [← hr] at hm
      exact hall e hm

/-- Entries produced by resolving a list of heads all trace back to one of
those heads. -/
theorem computeTerminalHeads_shape {V : Type} {applied : List (JStr × Op V)}
    {cur : Op V} {uc : Bool} {fuel : Nat}
    (hkeyed : ∀ (k : JStr) (o : Op V), lookupA applied k = some o →
      k = OpId.toString o.opId)
    (hpreds : ∀ kv ∈ applied, ∀ p ∈ (kv.2 : Op V).preds, hasKeyA applied p = true) :
    ∀ (hs2 : List JStr) (cache : List (JStr × List (Op V)))
      (preSort : List (Op V × Meta)) (cache1 : List (JStr × List (Op V))),
      computeTerminalHeads applied cur uc fuel hs2 cache = some (preSort, cache1) →
      (∀ h ∈ hs2, hasKeyA applied h = true ∨ h = OpId.toString cur.opId) →
      ∀ e ∈ preSort, ∃ h0 ∈ hs2, ((e : Op V × Meta).2.opIdTrace.head? = some h0) ∧
        (uc = false → e.2.opIdTrace.getLast? = some (OpId.toString e.1.opId)) := by
  intro hs2
  induction hs2 with
  | nil =>
    intro cache preSort cache1 hct _
    simp only [computeTerminalHeads] at hct
    obtain ⟨hp, -⟩ := Prod.mk.inj (Option.some.inj hct)
    intro e hm
    rw [← hp] at hm
    exact absurd hm (List.not_mem_nil e)
  | cons h t ih =>
    intro cache preSort cache1 hct hkeys
    simp only [computeTerminalHeads] at hct
    split at hct
    · exact absurd hct (by simp)
    · rename_i result cacheX hres
      split at hct
      · exact absurd hct (by simp)
      · rename_i more cache2 hct2
        obtain ⟨hp, -⟩ := Prod.mk.inj (Option.some.inj hct)
        intro e hm
        rw [← hp] at hm
        rcases List.mem_append.mp hm with hm1 | hm2
        · exact ⟨h, List.mem_cons_self _ _,
            resolveHeadOp_shape hkeyed hpreds hres
              (hkeys h (List.mem_cons_self _ _)) e hm1⟩
        · obtain ⟨h0, hh0, hsh⟩ := ih cacheX more cache2 hct2
            (fun x hx => hkeys x (List.mem_cons_of_mem _ hx)) e hm2
          exact ⟨h0, List.mem_cons_of_mem _ hh0, hsh⟩

/-- If the currently-processed op is a restore and the whole resolution
succeeded with the op's own key among the heads, then its anchor is in the
applied map (otherwise the queue loop would have thrown). -/
theorem computeTerminalHeads_anchor {V : Type} {applied : List (JStr × Op V)}
    {cur : Op V} {uc : Bool} {fuel : Nat} {i : OpId} {pr : List JStr} {anc : OpId}
    (hcur : cur = Op.restore i pr anc)
    (hfresh : lookupA applied (OpId.toString cur.opId) = none) :
    ∀ (hs2 : List JStr) (cache : List (JStr × List (Op V)))
      (preSort : List (Op V × Meta)) (cache1 : List (JStr × List (Op V))),
      computeTerminalHeads applied cur uc fuel hs2 cache = some (preSort, cache1) →
      OpId.toString cur.opId ∈ hs2 →
      hasKeyA applied (OpId.toString anc) = true := by
  subst hcur
  intro hs2
  induction hs2 with
  | nil =>
    intro cache preSort cache1 _ hmem
    exact absurd hmem (List.not_mem_nil _)
  | cons h t ih =>
    intro cache preSort cache1 hct hmem
    simp only [computeTerminalHeads] at hct
    split at hct
    · exact absurd hct (by simp)
    · rename_i result cacheX hres
      split at hct
      · exact absurd hct (by simp)
      · rename_i more cache2 hct2
        rcases List.mem_cons.mp hmem with hkh | hkt
        · clear hct hct2 ih
          rw [← hkh] at hres
          unfold resolveHeadOp at hres
          split at hres
          · exact absurd hres (by simp)
          · rename_i res0 hbf
            cases fuel with
            | zero => exact absurd hbf (by simp [bfsGo])
            | succ f =>
              cases hal : lookupA applied (OpId.toString anc) with
              | some anchorOp => rw [hasKeyA, hal]; rfl
              | none =>
                exfalso
                have hfresh2 : lookupA applied (OpId.toString i) = none := hfresh
                simp [bfsGo, hfresh2, hal, Op.opId] at hbf
        · exact ih cacheX more cache2 hct2 hkt

theorem ready_mem {m : List (JStr × Op V)} {op : Op V}
    (h : isCausallyReady m op = true) {p : JStr} (hp : p ∈ op.preds) :
    hasKeyA m p = true := by
  unfold isCausallyReady at h
  exact List.all_eq_true.mp h p hp

theorem setAddU_nodup {l : List JStr} {k : JStr} (h : l.Nodup) :
    (setAddU l k).Nodup := by
  unfold setAddU
  split
  · exact h
  · rename_i hk
    rw [List.nodup_append]
    exact ⟨h, List.nodup_singleton _, fun a ha hb => hk ((List.mem_singleton.mp hb) ▸ ha)⟩

theorem lookupA_append_singleton_ne {m : List (JStr × α)} {key k : JStr} {v : α}
    (h : k ≠ key) : lookupA (m ++ [(key, v)]) k = lookupA m k := by
  rw [lookupA_append]
  have h2 : lookupA [(key, v)] k = none := by
    rw [lookupA, if_neg (fun hh => h hh.symm)]
    rfl
  rw [h2, Option.or_none]

/-- Admitting a fresh, causally ready op preserves the deep graph
invariants. -/
theorem deepInv_admitted {op : Op V} {s : Replica V} {preSort : List (Op V × Meta)}
    {cache1 : List (JStr × List (Op V))} (hd : DeepInv s)
    (hfresh : hasKeyA s.appliedOps (OpId.toString op.opId) = false)
    (hready : isCausallyReady s.appliedOps op = true)
    (hct : computeTerminalHeads s.appliedOps op s.useCache (bfsFuel s.appliedOps)
      (advanceHeads op s.heads (OpId.toString op.opId)) s.cache =
      some (preSort, cache1)) :
    DeepInv (admittedState op s preSort cache1) := by
  have hnone := hasKeyA_false_iff.mp hfresh
  constructor
  · intro kv hkv p hp
    rw [admittedState_appliedOps] at hkv
    show hasKeyA (s.appliedOps ++ [(OpId.toString op.opId, op)]) p = true
    rcases List.mem_append.mp hkv with hm | hm
    · exact hasKeyA_extend (hd.predsApplied kv hm p hp)
    · rw [List.mem_singleton.mp hm] at hp
      exact hasKeyA_extend (ready_mem hready hp)
  · intro kv hkv i0 pr0 anc0 heq
    rw [admittedState_appliedOps] at hkv
    show hasKeyA (s.appliedOps ++ [(OpId.toString op.opId, op)])
      (OpId.toString anc0) = true
    rcases List.mem_append.mp hkv with hm | hm
    · exact hasKeyA_extend (hd.anchorsApplied kv hm i0 pr0 anc0 heq)
    · have hkv2 : kv.2 = op := by rw [List.mem_singleton.mp hm]
      rw [hkv2] at heq
      refine hasKeyA_extend (computeTerminalHeads_anchor heq ?_ _ _ _ _ hct ?_)
      · exact hnone
      · exact mem_setAddU.mpr (Or.inr rfl)
  · exact setAddU_nodup (hd.headsNodup.filter _)
  · intro k
    show k ∈ advanceHeads op s.heads (OpId.toString op.opId) ↔ _
    rw [admittedState_appliedOps]
    constructor
    · intro hk
      rcases mem_setAddU.mp hk with hf | hke
      · have hfil := List.mem_filter.mp hf
        have hnotp : k ∉ op.preds := by simpa using hfil.2
        obtain ⟨hkey0, hpred0⟩ := (hd.headsChar k).mp hfil.1
        refine ⟨hasKeyA_extend hkey0, ?_⟩
        intro kv hkv
        rcases List.mem_append.mp hkv with hm | hm
        · exact hpred0 kv hm
        · rw [List.mem_singleton.mp hm]
          exact hnotp
      · subst hke
        refine ⟨by rw [hasKeyA, lookupA_append_fresh _ hnone]; rfl, ?_⟩
        intro kv hkv
        rcases List.mem_append.mp hkv with hm | hm
        · intro hp
          have hk2 := hd.predsApplied kv hm _ hp
          rw [hfresh] at hk2
          exact absurd hk2 (by simp)
        · intro hp
          rw [List.mem_singleton.mp hm] at hp
          have hk2 := ready_mem hready hp
          rw [hfresh] at hk2
          exact absurd hk2 (by simp)
    · rintro ⟨hkey1, hpred1⟩
      by_cases hke : k = OpId.toString op.opId
      · exact mem_setAddU.mpr (Or.inr hke)
      · have hkey0 : hasKeyA s.appliedOps k = true := by
          rw [hasKeyA, lookupA_append_singleton_ne hke] at hkey1
          exact hkey1
        have hpred0 : ∀ kv ∈ s.appliedOps, k ∉ (kv.2 : Op V).preds :=
          fun kv hm => hpred1 kv (List.mem_append_left _ hm)
        have hnotp : k ∉ op.preds :=
          hpred1 (OpId.toString op.opId, op)
            (List.mem_append_right _ (List.mem_singleton_self _))
        refine mem_setAddU.mpr (Or.inl (List.mem_filter.mpr
          ⟨(hd.headsChar k).mpr ⟨hkey0, hpred0⟩, by simpa using hnotp⟩))

/-- Admitting a fresh, causally ready op establishes the trace shape of
the freshly stored terminal heads. -/
theorem traceShape_admitted {op : Op V} {s : Replica V} {preSort : List (Op V × Meta)}
    {cache1 : List (JStr × List (Op V))} (hc : CoreInv s) (hd : DeepInv s)
    (hct : computeTerminalHeads s.appliedOps op s.useCache (bfsFuel s.appliedOps)
      (advanceHeads op s.heads (OpId.toString op.opId)) s.cache =
      some (preSort, cache1)) :
    TraceShape (admittedState op s preSort cache1) := by
  intro e hm
  have hm2 : e ∈ stableSortJS sortCmp preSort := hm
  obtain ⟨h0, hh0, hsh⟩ := computeTerminalHeads_shape
    (fun k o hl => hc.wellKeyed _ (lookupA_mem hl)) hd.predsApplied
    _ _ _ _ hct
    (by
      intro h hh
      rcases mem_setAddU.mp hh with hf | hke
      · exact Or.inl (hc.headsSub h (List.mem_filter.mp hf).1)
      · exact Or.inr hke)
    e (mem_stableSortJS.mp hm2)
  exact ⟨⟨h0, hsh.1, hh0⟩, hsh.2⟩

/-- The worklist loop preserves the deep invariants and the trace shape,
provided skip-flagged entries are causally ready. -/
theorem addLoop_deep :
    ∀ (fuel : Nat) (wl : List (Op V × Bool)) (s s' : Replica V),
      CoreInv s → DeepInv s → TraceShape s → WlReady wl s →
      addLoop fuel wl s = some s' → DeepInv s' ∧ TraceShape s' := by
  intro fuel
  induction fuel with
  | zero => intro wl s s' _ _ _ _ h; exact absurd h (by simp [addLoop])
  | succ fuel ih =>
    intro wl s s' hc hd ht hw h
    cases wl with
    | nil =>
      rw [addLoop] at h
      injection h with h
      subst h
      exact ⟨hd, ht⟩
    | cons entry rest =>
      obtain ⟨op, skip⟩ := entry
      simp only [addLoop] at h
      by_cases h1 : hasKeyA s.appliedOps (OpId.toString op.opId) = true
      · rw [if_pos h1] at h
        exact ih rest s s' hc hd ht (fun p hp => hw p (List.mem_cons_of_mem _ hp)) h
      · rw [if_neg h1] at h
        by_cases h2 : (!skip && !isCausallyReady s.appliedOps op) = true
        · rw [if_pos h2] at h
          exact ih rest
            { s with lobby := if hasKeyA s.lobby (OpId.toString op.opId) then s.lobby
                              else s.lobby ++ [(OpId.toString op.opId, op)] } s'
            (coreInv_lobbyUpdate hc)
            ⟨hd.predsApplied, hd.anchorsApplied, hd.headsNodup, hd.headsChar⟩ ht
            (fun p hp => hw p (List.mem_cons_of_mem _ hp)) h
        · rw [if_neg h2] at h
          split at h
          · exact absurd h (by simp)
          · rename_i preSort cache1 hct
            have hready : isCausallyReady s.appliedOps op = true := by
              cases hskip : skip with
              | true =>
                have hmem := hw (op, skip) (List.mem_cons_self _ _)
                rw [hskip] at hmem
                exact hmem rfl
              | false =>
                rw [hskip] at h2
                simpa using h2
            have hfresh : hasKeyA s.appliedOps (OpId.toString op.opId) = false := by
              simpa using h1
            have hwl1 : WlReady ((readyOps op s).map (fun o => (o, true)) ++ rest)
                (admittedState op s preSort cache1) := by
              intro p hp hflag
              rw [admittedState_appliedOps]
              rcases List.mem_append.mp hp with hm | hm
              · obtain ⟨o, ho, hoe⟩ := List.mem_map.mp hm
                have ho2 := List.mem_filter.mp ho
                rw [← hoe]
                exact ho2.2
              · exact isCausallyReady_extend (hw p (List.mem_cons_of_mem _ hm) hflag)
            exact ih _ _ s' (coreInv_admitted hc hfresh)
              (deepInv_admitted hd hfresh hready hct)
              (traceShape_admitted hc hd hct) hwl1 h

theorem applyOps_deep :
    ∀ (ops : List (Op V)) (s s' : Replica V),
      CoreInv s → DeepInv s → TraceShape s → applyOps ops s = some s' →
      CoreInv s' ∧ DeepInv s' ∧ TraceShape s' := by
  intro ops
  induction ops with
  | nil =>
    intro s s' hc hd ht h
    simp only [applyOps] at h
    injection h with h
    subst h
    exact ⟨hc, hd, ht⟩
  | cons op rest ih =>
    intro s s' hc hd ht h
    simp only [applyOps] at h
    split at h
    · exact absurd h (by simp)
    · rename_i s1 hadd
      unfold add at hadd
      obtain ⟨hc1, _⟩ := addLoop_preserves _ _ s s1 hc hadd
      obtain ⟨hd1, ht1⟩ := addLoop_deep _ _ s s1 hc hd ht
        (by intro p hp hflag; exact absurd hflag (by simp [List.mem_singleton.mp hp]))
        hadd
      exact ih s1 s' hc1 hd1 ht1 h

/-- Every public call preserves the deep invariants and the trace shape. -/
theorem step_deep {s s' : Replica V} {a : Action V} (hc : CoreInv s)
    (hd : DeepInv s) (ht : TraceShape s) (h : step s a = some s') :
    CoreInv s' ∧ DeepInv s' ∧ TraceShape s' := by
  cases a with
  | deliver ops => exact applyOps_deep ops s s' hc hd ht h
  | setv v =>
    have h2 : applyOps [Op.set (tick s) s.heads (some v)]
        { s with undoStack := s.undoStack ++ [Op.set (tick s) s.heads (some v)],
                 redoStack := [] } = some s' := h
    exact applyOps_deep [Op.set (tick s) s.heads (some v)]
      { s with undoStack := s.undoStack ++ [Op.set (tick s) s.heads (some v)],
               redoStack := [] } s' (coreInv_stacks hc)
      ⟨hd.predsApplied, hd.anchorsApplied, hd.headsNodup, hd.headsChar⟩ ht h2
  | del =>
    by_cases hv : s.values.length = 0
    · have h2 : some s = some s' := by
        have h3 : deleteValue s = some s' := h
        rw [deleteValue, if_pos hv] at h3
        exact h3
      injection h2 with h2
      subst h2
      exact ⟨hc, hd, ht⟩
    · have h2 : applyOps [Op.set (tick s) s.heads none]
          { s with undoStack := s.undoStack ++ [Op.set (tick s) s.heads none],
                   redoStack := [] } = some s' := by
        have h3 : deleteValue s = some s' := h
        rw [deleteValue, if_neg hv] at h3
        exact h3
      exact applyOps_deep [Op.set (tick s) s.heads none]
        { s with undoStack := s.undoStack ++ [Op.set (tick s) s.heads none],
                 redoStack := [] } s' (coreInv_stacks hc)
        ⟨hd.predsApplied, hd.anchorsApplied, hd.headsNodup, hd.headsChar⟩ ht h2
  | undo =>
    have h3 : undoOp s = some s' := h
    rw [undoOp] at h3
    split at h3
    · injection h3 with h3
      subst h3
      exact ⟨hc, hd, ht⟩
    · rename_i u0 hu0
      exact applyOps_deep [Op.restore (tick s) s.heads u0.opId]
        { s with undoStack := s.undoStack.dropLast,
                 redoStack := s.redoStack ++ [Op.restore (tick s) s.heads u0.opId] }
        s' (coreInv_stacks hc)
        ⟨hd.predsApplied, hd.anchorsApplied, hd.headsNodup, hd.headsChar⟩ ht h3
  | redo =>
    have h3 : redoOp s = some s' := h
    rw [redoOp] at h3
    split at h3
    · injection h3 with h3
      subst h3
      exact ⟨hc, hd, ht⟩
    · rename_i r0 hr0
      split at h3
      · exact absurd h3 (by simp)
      · rename_i t0 hres
        exact applyOps_deep [Op.restore (tick s) s.heads r0.opId]
          { s with undoStack := s.undoStack ++ [t0],
                   redoStack := s.redoStack.dropLast } s' (coreInv_stacks hc)
          ⟨hd.predsApplied, hd.anchorsApplied, hd.headsNodup, hd.headsChar⟩ ht h3

theorem run_deep :
    ∀ (acts : List (Action V)) (s s' : Replica V),
      CoreInv s → DeepInv s → TraceShape s → run s acts = some s' →
      CoreInv s' ∧ DeepInv s' ∧ TraceShape s' := by
  intro acts
  induction acts with
  | nil =>
    intro s s' hc hd ht h
    simp only [run] at h
    injection h with h
    subst h
    exact ⟨hc, hd, ht⟩
  | cons a rest ih =>
    intro s s' hc hd ht h
    simp only [run] at h
    split at h
    · exact absurd h (by simp)
    · rename_i s1 hstep
      obtain ⟨hc1, hd1, ht1⟩ := step_deep hc hd ht hstep
      exact ih s1 s' hc1 hd1 ht1 h

/-- A fresh replica satisfies the deep invariants and the trace shape. -/
theorem deep_create (V : Type) (a : JStr) (u : Bool) :
    DeepInv (create V a u) ∧ TraceShape (create V a u) := by
  constructor
  · refine ⟨?_, ?_, ?_, ?_⟩ <;> simp [create, hasKeyA, lookupA]
  · intro e hm
    exact absurd hm (List.not_mem_nil e)

/-- Any reachable state satisfies the deep invariants and trace shape. -/
theorem reachable_deep {V : Type} {a : JStr} {u : Bool} {s : Replica V}
    (h : ReachableFrom (create V a u) s) :
    CoreInv s ∧ DeepInv s ∧ TraceShape s := by
  obtain ⟨acts, hrun⟩ := h
  exact run_deep acts _ s (inv_create V a u).1 (deep_create V a u).1
    (deep_create V a u).2 hrun

/-! ### Sorting a permutation-unique list -/

/-- Claim C4 (S1 linear): on a fresh replica for actor A, the call sequence
`set(1); set(2); set(3); undo(); undo(); redo()` ends with `get() = [2]`,
the top of the undo stack being the original `set(2)` operation, and the
redo stack holding exactly one entry. -/
theorem claim4_s1_linear :
    (run (create Nat actorA false)
        [.setv 1, .setv 2, .setv 3, .undo, .undo, .redo]).map
      (fun s => (s.values, s.undoStack.getLast?, s.redoStack.length)) =
    some ([2], some (Op.set ⟨2, actorA⟩ [OpId.toString ⟨1, actorA⟩] (some 2)), 1) := by
  rfl

/-- Claim C5 (S7 duplicate convergence): three replicas share A's `set(1)`;
A does `undo(); redo()`, B does `set(3); set(4)`, C does `set(2); undo()`
concurrently; after exchanging every operation with every replica, all
three read `[1, 4, 1]` (the 1 un-deduplicated) with identical
terminal-head traces. The first three conjuncts pin the delivered op
literals to each replica's actual local emissions. -/
theorem claim5_s7_duplicate_convergence :
    (run (create Nat actorA false) [.setv 1, .undo, .redo]).map
        (fun s => s.appliedOps.map Prod.snd) = some [opA1, opA2, opA3] ∧
    (run (create Nat actorB false) [.deliver [opA1], .setv 3, .setv 4]).map
        (fun s => s.appliedOps.map Prod.snd) = some [opA1, opB2, opB3] ∧
    (run (create Nat actorC false) [.deliver [opA1], .setv 2, .undo]).map
        (fun s => s.appliedOps.map Prod.snd) = some [opA1, opC2, opC3] ∧
    (run (create Nat actorA false)
        [.setv 1, .undo, .redo, .deliver [opB2, opB3, opC2, opC3]]).map
        (fun s => (s.values, s.termHeads.map (fun e => e.2.opIdTrace))) =
      some ([1, 4, 1], s7traces) ∧
    (run (create Nat actorB false)
        [.deliver [opA1], .setv 3, .setv 4, .deliver [opC2, opC3, opA2, opA3]]).map
        (fun s => (s.values, s.termHeads.map (fun e => e.2.opIdTrace))) =
      some ([1, 4, 1], s7traces) ∧
    (run (create Nat actorC false)
        [.deliver [opA1], .setv 2, .undo, .deliver [opA2, opA3, opB2, opB3]]).map
        (fun s => (s.values, s.termHeads.map (fun e => e.2.opIdTrace))) =
      some ([1, 4, 1], s7traces) := by
  exact ⟨rfl, rfl, rfl, rfl, rfl, rfl⟩

/-- Claim C7 counterexample: for the actor id `"a@b"` (which contains the
separator), `fromString (toString (1, "a@b"))` yields counter 1 with actor
`"a"`, not the original OpId — the round trip loses information. -/
theorem claim7_counterexample :
    OpId.fromString (OpId.toString ⟨1, ['a', '@', 'b']⟩) = (some 1, some ['a']) ∧
    (['a'] : JStr) ≠ ['a', '@', 'b'] := by
  decide

/-- Claim C7 (amended): `fromString (toString o)` recovers `o` exactly for
every OpId whose actor id does not contain the separator character `'@'`;
the "counter@actor" form is lossless precisely on such actor ids. -/
theorem claim7_roundtrip (o : OpId) (h : '@' ∉ o.actor) :
    OpId.fromString (OpId.toString o) = (some (o.ctr : Int), some o.actor) :=
  fromString_toString o h

/-- Witness for the amended C7 at the concrete OpId `57@q`. -/
theorem claim7_witness :
    '@' ∉ (['q'] : JStr) ∧
    OpId.fromString (OpId.toString ⟨57, ['q']⟩) = (some 57, some ['q']) :=
  ⟨by decide, claim7_roundtrip ⟨57, ['q']⟩ (by decide)⟩

/-- Claim C9 counterexample: `fromString "x@a"` silently returns a value
with a `NaN` counter, and `fromString "1@"` silently accepts the empty
actor — no error of any kind is surfaced by the parser. -/
theorem claim9_counterexample :
    OpId.fromString ['x', '@', 'a'] = (none, some ['a']) ∧
    OpId.fromString ['1', '@'] = (some 1, some []) := by
  decide

/-- Claim C9 (amended): parsing performs no validation and never surfaces
an error: whenever the counter part of the input fails to parse, the
parser silently returns a pair with a `NaN` counter and whatever actor
part the split produced. -/
theorem claim9_malformed (s : JStr)
    (h : jsParseInt ((splitOnChar '@' s).headD []) = none) :
    OpId.fromString s = (none, (splitOnChar '@' s).get? 1) := by
  have hs : OpId.fromString s =
      (jsParseInt ((splitOnChar '@' s).headD []), (splitOnChar '@' s).get? 1) := rfl
  rw [hs, h]

/-- Witness for the amended C9 at the concrete input `"x@a"`. -/
theorem claim9_witness :
    jsParseInt ((splitOnChar '@' (['x', '@', 'a'] : JStr)).headD []) = none ∧
    OpId.fromString ['x', '@', 'a'] =
      (none, (splitOnChar '@' (['x', '@', 'a'] : JStr)).get? 1) :=
  ⟨by decide, claim9_malformed ['x', '@', 'a'] (by decide)⟩

/-- Claim C6 counterexample: with `useCache = true`, after
`set(1); set(2); undo(); undo(); redo()` on actor A the single terminal
head is A's `set(1)` (OpId `1@A`), but its trace is `["5@A", "3@A"]` — the
cache splice truncates the trace at the cached restore `3@A`, so the last
trace element is not the terminal set's OpId. -/
theorem claim6_counterexample :
    (run (create Nat actorA true) [.setv 1, .setv 2, .undo, .undo, .redo]).map
        (fun s => (s.termHeads.map (fun e => (e.1.opId, e.2.opIdTrace)), s.heads)) =
      some ([(⟨1, actorA⟩, [OpId.toString ⟨5, actorA⟩, OpId.toString ⟨3, actorA⟩])],
        [OpId.toString ⟨5, actorA⟩]) ∧
    OpId.toString ⟨3, actorA⟩ ≠ OpId.toString ⟨1, actorA⟩ := by
  refine ⟨rfl, by decide⟩

/-- Claim C3 (stack locality): on any reachable state, every operation on
the undo stack and every operation on the redo stack carries an OpId whose
actor component is the replica's own actor id; in particular the terminal
set op that `redo()` pushes onto the undo stack is the replica's own. -/
theorem claim3_stack_locality {V : Type} (a : JStr) (u : Bool) (s : Replica V)
    (h : ReachableFrom (create V a u) s) :
    (∀ op ∈ s.undoStack, op.opId.actor = a) ∧
    (∀ op ∈ s.redoStack, op.opId.actor = a) := by
  obtain ⟨⟨_, hs⟩, ha⟩ := reachable_inv h
  constructor
  · intro op hm
    obtain ⟨i, p, v, heq, hact, _⟩ := hs.undoOwn op hm
    rw [heq]
    exact hact.trans ha
  · intro op hm
    obtain ⟨i, p, anc, heq, hact, _⟩ := hs.redoOwn op hm
    rw [heq]
    exact hact.trans ha

/-- Witness for C3 at the reachable state after `set(1); undo()`. -/
theorem claim3_witness :
    ReachableFrom (create Nat actorA false) reach1 ∧
    (∀ op ∈ reach1.undoStack, op.opId.actor = actorA) ∧
    (∀ op ∈ reach1.redoStack, op.opId.actor = actorA) :=
  ⟨⟨[.setv 1, .undo], rfl⟩,
    claim3_stack_locality actorA false reach1 ⟨[.setv 1, .undo], rfl⟩⟩

/-- Claim C8 (restore chain bound): on any reachable state, the restore op
that `redo()` would emit (anchored at the top of the redo stack) is
resolved by the restore-to-terminal resolver within two iterations: with
fuel 2 the resolver returns a terminal (non-restore) op rather than
raising "cannot resolve". -/
theorem claim8_restore_chain_bound {V : Type} (a : JStr) (u : Bool)
    (s : Replica V) (h : ReachableFrom (create V a u) s) (r0 : Op V)
    (hr : s.redoStack.getLast? = some r0) :
    ∃ t : Op V, resolveToTerminalOp s.appliedOps 2 r0.opId = some t ∧
      t.isRestoreKind = false := by
  obtain ⟨⟨_, hs⟩, _⟩ := reachable_inv h
  obtain ⟨i, p, anc, heqr, _, hlookr, ui, up, uv, halook, _⟩ :=
    hs.redoOwn r0 (getLast?_mem hr)
  refine ⟨Op.set ui up uv, ?_, rfl⟩
  have hop : r0.opId = i := by subst heqr; rfl
  rw [hop]
  show resolveToTerminalOp s.appliedOps (1 + 1) i = some (Op.set ui up uv)
  simp only [resolveToTerminalOp, hlookr, heqr, halook]

/-- Witness for C8 at the reachable state after `set(1); undo()`, whose
redo stack top anchors A's `set(1)`. -/
theorem claim8_witness :
    ReachableFrom (create Nat actorA false) reach1 ∧
    reach1.redoStack.getLast? =
      some (Op.restore ⟨2, actorA⟩ [OpId.toString ⟨1, actorA⟩] ⟨1, actorA⟩) ∧
    ∃ t : Op Nat,
      resolveToTerminalOp reach1.appliedOps 2
        (Op.restore ⟨2, actorA⟩ [OpId.toString ⟨1, actorA⟩] ⟨1, actorA⟩ : Op Nat).opId =
        some t ∧ t.isRestoreKind = false :=
  ⟨⟨[.setv 1, .undo], rfl⟩, by decide,
    claim8_restore_chain_bound actorA false reach1 ⟨[.setv 1, .undo], rfl⟩
      (Op.restore ⟨2, actorA⟩ [OpId.toString ⟨1, actorA⟩] ⟨1, actorA⟩) (by decide)⟩

/-- Claim C6 (amended trace shape): on every reachable replica state,
every entry of `terminalHeads()` has a non-empty opIdTrace whose first
element is a member of the current heads set; when `useCache = false` the
trace's last element equals the OpId of the entry's terminal Set
operation. (With `useCache = true` the last element can instead be the
OpId of a cached Restore, see the counterexample.) -/
theorem claim6_trace_shape {V : Type} (a : JStr) (u : Bool) (s : Replica V)
    (h : ReachableFrom (create V a u) s) :
    ∀ e ∈ s.termHeads,
      (∃ h0, (e : Op V × Meta).2.opIdTrace.head? = some h0 ∧ h0 ∈ s.heads) ∧
      (s.useCache = false →
        e.2.opIdTrace.getLast? = some (OpId.toString e.1.opId)) := by
  obtain ⟨_, _, ht⟩ := reachable_deep h
  exact ht

/-- Witness for the amended C6 at the reachable state after `set(1)`. -/
theorem claim6_witness :
    ReachableFrom (create Nat actorA false) reach2 ∧
    ∀ e ∈ reach2.termHeads,
      (∃ h0, (e : Op Nat × Meta).2.opIdTrace.head? = some h0 ∧ h0 ∈ reach2.heads) ∧
      (reach2.useCache = false →
        e.2.opIdTrace.getLast? = some (OpId.toString e.1.opId)) :=
  ⟨⟨[.setv 1], rfl⟩,
    claim6_trace_shape actorA false reach2 ⟨[.setv 1], rfl⟩⟩

/-- Claim C2 (idempotence): applying an operation whose OpId is already in
the applied-operation map returns the state entirely unchanged — `get()`,
`terminalHeads()`, heads, applied map, lobby, clock and both stacks
included, since the whole replica record is returned as-is. -/
theorem claim2_idempotence {V : Type} (s : Replica V) (op : Op V)
    (h : hasKeyA s.appliedOps (OpId.toString op.opId) = true) :
    applyOps [op] s = some s := by
  have hadd : add op s = some s := by
    show addLoop (s.lobby.length + 1 + 1) [(op, false)] s = some s
    rw [addLoop]
    simp [h, addLoop]
  simp [applyOps, hadd]

/-- Witness for C2: re-applying `1@A`'s set op to a state that already
holds it in the applied map. -/
theorem claim2_witness :
    hasKeyA witnessApplied.appliedOps (OpId.toString opA1.opId) = true ∧
    applyOps [opA1] witnessApplied = some witnessApplied :=
  ⟨by decide, claim2_idempotence witnessApplied opA1 (by decide)⟩

/-- Claim C10 (lobby frame property): applying an op that is not yet
applied but has a missing predecessor only inserts it into the lobby —
every other component of the replica is unchanged (the result is the same
record with only the lobby field extended) — and re-applying the same
still-unready op changes nothing at all. -/
theorem claim10_lobby_frame {V : Type} (s : Replica V) (op : Op V)
    (h1 : hasKeyA s.appliedOps (OpId.toString op.opId) = false)
    (h2 : ∃ p ∈ op.preds, hasKeyA s.appliedOps p = false) :
    applyOps [op] s = some { s with
      lobby := if hasKeyA s.lobby (OpId.toString op.opId) then s.lobby
               else s.lobby ++ [(OpId.toString op.opId, op)] } ∧
    applyOps [op] { s with
      lobby := if hasKeyA s.lobby (OpId.toString op.opId) then s.lobby
               else s.lobby ++ [(OpId.toString op.opId, op)] } = some { s with
      lobby := if hasKeyA s.lobby (OpId.toString op.opId) then s.lobby
               else s.lobby ++ [(OpId.toString op.opId, op)] } := by
  obtain ⟨p, hp, hmiss⟩ := h2
  have hready : isCausallyReady s.appliedOps op = false :=
    isCausallyReady_eq_false_of_missing s.appliedOps op p hp hmiss
  constructor
  · have hadd : add op s = some { s with
        lobby := if hasKeyA s.lobby (OpId.toString op.opId) then s.lobby
                 else s.lobby ++ [(OpId.toString op.opId, op)] } := by
      show addLoop (s.lobby.length + 1 + 1) [(op, false)] s = _
      rw [addLoop]
      simp [h1, hready]
      rw [addLoop]
    simp [applyOps, hadd]
  · set s1 : Replica V := { s with
      lobby := if hasKeyA s.lobby (OpId.toString op.opId) then s.lobby
               else s.lobby ++ [(OpId.toString op.opId, op)] } with hs1
    have hlobbyHas : hasKeyA s1.lobby (OpId.toString op.opId) = true := by
      rw [hs1]
      by_cases hin : hasKeyA s.lobby (OpId.toString op.opId) = true
      · simp [hin]
      · rw [Bool.not_eq_true] at hin
        simp only [hin, if_false]
        exact lookupA_append_right_isSome s.lobby (OpId.toString op.opId) op
    have hadd : add op s1 = some s1 := by
      show addLoop (s1.lobby.length + 1 + 1) [(op, false)] s1 = _
      rw [addLoop]
      simp only [h1, hready, Bool.not_false, Bool.and_self, if_false, hlobbyHas, if_true]
      rw [addLoop]
      simp
    simp [applyOps, hadd]

/-- Witness for C10: delivering B's `set(3)` (whose pred `1@A` is missing)
to a fresh replica for A defers it to the lobby and nothing else. -/
theorem claim10_witness :
    hasKeyA (create Nat actorA false).appliedOps (OpId.toString opB2.opId) = false ∧
    (∃ p ∈ opB2.preds, hasKeyA (create Nat actorA false).appliedOps p = false) ∧
    applyOps [opB2] (create Nat actorA false) = some { create Nat actorA false with
      lobby := if hasKeyA (create Nat actorA false).lobby (OpId.toString opB2.opId)
               then (create Nat actorA false).lobby
               else (create Nat actorA false).lobby ++
                 [(OpId.toString opB2.opId, opB2)] } :=
  ⟨by decide, ⟨OpId.toString ⟨1, actorA⟩, by decide, by decide⟩,
    (claim10_lobby_frame (create Nat actorA false) opB2 (by decide)
      ⟨OpId.toString ⟨1, actorA⟩, by decide, by decide⟩).1⟩

end Picomerge
